import Mathlib

/-!
Verification of the lazyrepo task-graph core.

This file shallowly embeds the task-graph construction and scheduling code
of `src/tasks/TaskGraph.js` and the output-capture routine `cacheOutputs`,
and proves the stated properties about them.

Modelling conventions:
  - JavaScript objects keyed by strings become association lists
    `List (String × _)` in insertion order.
  - Status values are the exact strings the source assigns
    (`"pending"`, `"running"`, `"success:eager"`, `"success:lazy"`,
    `"failure"`); `status.startsWith('success')` is modelled at the
    character-list level so that concrete instances compute.
  - JavaScript's default `Array.prototype.sort()` on strings compares by
    UTF-16 code units; for the ASCII task keys used here this agrees with
    code-point order, modelled by `keyLe` below and an insertion sort.
  - Exceptions become `Except` results; recursion in graph construction is
    bounded by explicit fuel (the source terminates because every visit
    adds a fresh key to a finite map).
-/

namespace Lazyrepo

/-- Lexicographic order on character lists by code point, modelling the
comparison JavaScript's default string sort performs on the task keys. -/
def charListLe : List Char → List Char → Bool
  | [], _ => true
  | _ :: _, [] => false
  | a :: as, b :: bs =>
    if a.toNat < b.toNat then true
    else if b.toNat < a.toNat then false
    else charListLe as bs

/-- String comparison used by the JavaScript `readyTasks.sort()` call. -/
def keyLe (a b : String) : Bool :=
  charListLe a.data b.data

/-- Models `String.prototype.startsWith`: the needle's characters are a
prefix of the subject's characters. -/
def strStartsWith (s p : String) : Bool :=
  p.data.isPrefixOf s.data

theorem charListLe_total : ∀ a b : List Char, charListLe a b = true ∨ charListLe b a = true := by
  intro a
  induction a with
  | nil => intro b; left; rfl
  | cons x xs ih =>
    intro b
    cases b with
    | nil => right; rfl
    | cons y ys =>
      by_cases hxy : x.toNat < y.toNat
      · left; simp [charListLe, hxy]
      · by_cases hyx : y.toNat < x.toNat
        · right; simp [charListLe, hyx]
        · have := ih ys
          rcases this with h | h
          · left; simp [charListLe, hxy, hyx, h]
          · right; simp [charListLe, hxy, hyx, h]

theorem charListLe_trans : ∀ a b c : List Char,
    charListLe a b = true → charListLe b c = true → charListLe a c = true := by
  intro a
  induction a with
  | nil => intro b c _ _; rfl
  | cons x xs ih =>
    intro b c hab hbc
    cases b with
    | nil => simp [charListLe] at hab
    | cons y ys =>
      cases c with
      | nil => simp [charListLe] at hbc
      | cons z zs =>
        simp only [charListLe] at hab hbc ⊢
        by_cases hxy : x.toNat < y.toNat
        · by_cases hyz : y.toNat < z.toNat
          · have : x.toNat < z.toNat := Nat.lt_trans hxy hyz
            simp [this]
          · by_cases hzy : z.toNat < y.toNat
            · simp [hyz, hzy] at hbc
            · have hyz' : y.toNat = z.toNat := Nat.le_antisymm (Nat.le_of_not_lt hzy) (Nat.le_of_not_lt hyz)
              have : x.toNat < z.toNat := hyz' ▸ hxy
              simp [this]
        · by_cases hyx : y.toNat < x.toNat
          · simp [hxy, hyx] at hab
          · have hxy' : x.toNat = y.toNat := Nat.le_antisymm (Nat.le_of_not_lt hyx) (Nat.le_of_not_lt hxy)
            by_cases hyz : y.toNat < z.toNat
            · have : x.toNat < z.toNat := hxy' ▸ hyz
              simp [this]
            · by_cases hzy : z.toNat < y.toNat
              · simp [hyz, hzy] at hbc
              · simp only [hxy, hyx, if_neg, ite_false] at hab
                simp only [hyz, hzy, if_neg, ite_false] at hbc
                have hxz : ¬ x.toNat < z.toNat := by
                  rw [hxy']; exact hyz
                have hzx : ¬ z.toNat < x.toNat := by
                  rw [hxy']; exact hzy
                simp [hxz, hzx]
                exact ih ys zs hab hbc

theorem keyLe_total (a b : String) : keyLe a b = true ∨ keyLe b a = true :=
  charListLe_total a.data b.data

theorem keyLe_trans {a b c : String} (h₁ : keyLe a b = true) (h₂ : keyLe b c = true) :
    keyLe a c = true :=
  charListLe_trans a.data b.data c.data h₁ h₂

/-- Insert a key into an already sorted list, keeping `keyLe` order.
Together with `sortKeys` this models the JavaScript `Array.prototype.sort()`
call at the end of `allReadyTaskKeys` (default string comparator). -/
def orderedInsert (a : String) : List String → List String
  | [] => [a]
  | b :: l => if keyLe a b then a :: b :: l else b :: orderedInsert a l

/-- Model of `readyTasks.sort()`: sort strings by the default comparator. -/
def sortKeys : List String → List String
  | [] => []
  | a :: l => orderedInsert a (sortKeys l)

theorem mem_orderedInsert {x a : String} {l : List String} :
    x ∈ orderedInsert a l ↔ x = a ∨ x ∈ l := by
  induction l with
  | nil => simp [orderedInsert]
  | cons b t ih =>
    by_cases h : keyLe a b
    · simp [orderedInsert, h]
    · rw [orderedInsert, if_neg h]
      simp only [List.mem_cons, ih]
      tauto

theorem mem_sortKeys {x : String} {l : List String} :
    x ∈ sortKeys l ↔ x ∈ l := by
  induction l with
  | nil => simp [sortKeys]
  | cons a t ih => simp [sortKeys, mem_orderedInsert, ih]

theorem nodup_orderedInsert {a : String} {l : List String} (ha : a ∉ l) (hl : l.Nodup) :
    (orderedInsert a l).Nodup := by
  induction l with
  | nil => simp [orderedInsert]
  | cons b t ih =>
    by_cases h : keyLe a b
    · simp only [orderedInsert, h, ite_true]
      exact List.nodup_cons.2 ⟨ha, hl⟩
    · simp only [orderedInsert, h, ite_false]
      have hbt : b ∉ t := (List.nodup_cons.1 hl).1
      have ht : t.Nodup := (List.nodup_cons.1 hl).2
      have hat : a ∉ t := fun hx => ha (List.mem_cons_of_mem _ hx)
      have hab : a ≠ b := fun hx => ha (hx ▸ List.mem_cons_self _ _)
      refine List.nodup_cons.2 ⟨?_, ih hat ht⟩
      intro hb
      rcases mem_orderedInsert.1 hb with h1 | h1
      · exact hab h1.symm
      · exact hbt h1

theorem nodup_sortKeys {l : List String} (hl : l.Nodup) : (sortKeys l).Nodup := by
  induction l with
  | nil => simp [sortKeys]
  | cons a t ih =>
    have hat : a ∉ t := (List.nodup_cons.1 hl).1
    have ht : t.Nodup := (List.nodup_cons.1 hl).2
    have : a ∉ sortKeys t := fun hx => hat (mem_sortKeys.1 hx)
    exact nodup_orderedInsert this (ih ht)

theorem pairwise_orderedInsert {a : String} {l : List String}
    (hl : l.Pairwise (fun x y => keyLe x y = true)) :
    (orderedInsert a l).Pairwise (fun x y => keyLe x y = true) := by
  induction l with
  | nil => simp [orderedInsert]
  | cons b t ih =>
    by_cases h : keyLe a b
    · simp only [orderedInsert, h, ite_true]
      refine List.pairwise_cons.2 ⟨?_, hl⟩
      intro y hy
      rcases List.mem_cons.1 hy with hy | hy
      · exact hy ▸ h
      · exact keyLe_trans h ((List.pairwise_cons.1 hl).1 y hy)
    · simp only [orderedInsert, h, ite_false]
      have hba : keyLe b a = true := (keyLe_total a b).resolve_left (by simpa using h)
      have hbt := (List.pairwise_cons.1 hl).1
      have ht := (List.pairwise_cons.1 hl).2
      refine List.pairwise_cons.2 ⟨?_, ih ht⟩
      intro y hy
      rcases mem_orderedInsert.1 hy with h1 | h1
      · exact h1 ▸ hba
      · exact hbt y h1

theorem pairwise_sortKeys (l : List String) :
    (sortKeys l).Pairwise (fun x y => keyLe x y = true) := by
  induction l with
  | nil => simp [sortKeys]
  | cons a t ih => exact pairwise_orderedInsert ih

/-- Index of the first occurrence of a key in a list (length if absent). -/
def keyIdx (k : String) : List String → Nat
  | [] => 0
  | x :: rest => if x = k then 0 else keyIdx k rest + 1

theorem keyIdx_append_of_mem {k : String} {l₁ l₂ : List String} (h : k ∈ l₁) :
    keyIdx k (l₁ ++ l₂) = keyIdx k l₁ := by
  induction l₁ with
  | nil => cases h
  | cons x t ih =>
    by_cases hx : x = k
    · simp [keyIdx, hx]
    · have hkt : k ∈ t := by
        rcases List.mem_cons.1 h with h1 | h1
        · exact absurd h1.symm hx
        · exact h1
      rw [List.cons_append, keyIdx, keyIdx, if_neg hx, if_neg hx, ih hkt]

theorem keyIdx_lt_length_of_mem {k : String} {l : List String} (h : k ∈ l) :
    keyIdx k l < l.length := by
  induction l with
  | nil => cases h
  | cons x t ih =>
    by_cases hx : x = k
    · simp [keyIdx, hx]
    · have hkt : k ∈ t := by
        rcases List.mem_cons.1 h with h1 | h1
        · exact absurd h1.symm hx
        · exact h1
      rw [keyIdx, if_neg hx, List.length_cons]
      exact Nat.succ_lt_succ (ih hkt)

theorem keyIdx_append_of_not_mem {k : String} {l₁ l₂ : List String} (h : k ∉ l₁) :
    keyIdx k (l₁ ++ l₂) = l₁.length + keyIdx k l₂ := by
  induction l₁ with
  | nil => simp [keyIdx]
  | cons x t ih =>
    have hx : x ≠ k := fun hxk => h (hxk ▸ List.mem_cons_self _ _)
    have ht : k ∉ t := fun hkt => h (List.mem_cons_of_mem _ hkt)
    rw [List.cons_append, keyIdx, if_neg hx, ih ht, List.length_cons]
    omega

/-- A workspace of the project model: directory, name, declared scripts
(name, command string) and the names of local dependency workspaces. -/
structure Workspace where
  dir : String
  name : String
  scripts : List (String × String)
  localDependencyWorkspaceNames : List String
deriving DecidableEq

/-- One `runsAfter` entry of a task configuration.  The source field is
named `in`; that word is reserved in Lean, so it is called `scope` here.
Its values are the source strings `"all"`, `"self-and-dependencies"` and
`"self-only"`. -/
structure RunsAfterConfig where
  scope : String
deriving DecidableEq

/-- The slice of a TaskConfig that `TaskGraph.js` reads: execution mode
string, `parallel` flag and the ordered `runsAfter` entries. -/
structure TaskConfig where
  execution : String
  parallel : Bool
  runsAfterEntries : List (String × RunsAfterConfig)
deriving DecidableEq

/-- A user-requested task. -/
structure RequestedTask where
  scriptName : String
  extraArgs : List String
  force : Bool
  filterPaths : List String
deriving DecidableEq

/-- The project model: the root workspace plus the directory-keyed
workspace map in insertion order. -/
structure Project where
  root : Workspace
  workspacesByDir : List (String × Workspace)
deriving DecidableEq

/-- Generic association-list lookup on string keys (models indexing a
JavaScript object or `Map.get`). -/
def assocFind {α : Type} : List (String × α) → String → Option α
  | [], _ => none
  | (k, v) :: rest, key => if k = key then some v else assocFind rest key

/-- Models `project.getWorkspaceByDir(dir)`. -/
def Project.getWorkspaceByDir (p : Project) (dir : String) : Option Workspace :=
  assocFind p.workspacesByDir dir

/-- Modelled from the spec: `project.getWorkspaceByName(name)` lives in
`Project.js`, which is not among the provided sources; per the spec's
collaborator contract it returns the workspace with the given name. -/
def Project.getWorkspaceByName (p : Project) (name : String) : Option Workspace :=
  (p.workspacesByDir.map Prod.snd).find? (fun w => w.name = name)

/-- The configuration interface the task graph consumes.  `getTaskConfig`
and `isTopLevelScript` live in external config code and are modelled as
abstract total functions; `mm` is the external `micromatch.match`
collaborator (candidate list, pattern ↦ matching candidates). -/
structure Config where
  project : Project
  getTaskConfig : String → String → TaskConfig
  isTopLevelScript : String → Bool
  mm : List String → String → List String

/-- Modelled from the spec: `config.getTaskKey(dir, scriptName)` lives in
external config code; the spec fixes the format
`"{scriptName}::{workspaceDir}"`. -/
def getTaskKey (dir scriptName : String) : String :=
  scriptName ++ "::" ++ dir

/-- A scheduled task node, mirroring the object literal the constructor
stores in `allTasks` (the logger field is omitted). -/
structure ScheduledTask where
  key : String
  taskConfig : TaskConfig
  scriptName : String
  extraArgs : List String
  force : Bool
  status : String
  outputFiles : List String
  dependencies : List String
  inputManifestCacheKey : Option String
  workspace : Workspace
deriving DecidableEq

/-- Default node used to total lookups; the source never reads a missing
key on the paths verified here (well-formedness hypotheses ensure it). -/
def defaultScheduledTask : ScheduledTask :=
  { key := ""
  , taskConfig := { execution := "independent", parallel := true, runsAfterEntries := [] }
  , scriptName := ""
  , extraArgs := []
  , force := false
  , status := "pending"
  , outputFiles := []
  , dependencies := []
  , inputManifestCacheKey := none
  , workspace := { dir := "", name := "", scripts := [], localDependencyWorkspaceNames := [] } }

/-- The task graph state: the node map `allTasks` (insertion-ordered
association list) and the post-order key list `sortedTaskKeys`. -/
structure TaskGraph where
  allTasks : List (String × ScheduledTask)
  sortedTaskKeys : List String
deriving DecidableEq

/-- Errors that abort graph construction.  `cycle` carries the visitation
path including the re-encountered key, as in the source's message. -/
inductive BuildError where
  | cycle (path : List String)
  | missingWorkspace (name : String)
  | fuelExhausted
deriving DecidableEq

instance {ε α : Type} [DecidableEq ε] [DecidableEq α] : DecidableEq (Except ε α) :=
  fun a b =>
    match a, b with
    | Except.ok x, Except.ok y => decidable_of_iff (x = y) (by simp)
    | Except.error x, Except.error y => decidable_of_iff (x = y) (by simp)
    | Except.ok _, Except.error _ => isFalse (fun h => by cases h)
    | Except.error _, Except.ok _ => isFalse (fun h => by cases h)

/-- Update the value stored under a key (models `obj[key].field = v`). -/
def updateEntry {α : Type} (f : α → α) : List (String × α) → String → List (String × α)
  | [], _ => []
  | (k, v) :: rest, key =>
    if k = key then (k, f v) :: updateEntry f rest key else (k, v) :: updateEntry f rest key

theorem assocFind_eq_none {α : Type} {l : List (String × α)} {key : String} :
    assocFind l key = none ↔ key ∉ l.map Prod.fst := by
  induction l with
  | nil => simp [assocFind]
  | cons p rest ih =>
    obtain ⟨k, v⟩ := p
    by_cases hk : k = key
    · simp [assocFind, hk]
    · simp only [assocFind, hk, ite_false, List.map_cons, List.mem_cons, ih]
      constructor
      · intro h hmem
        rcases hmem with h1 | h1
        · exact hk h1.symm
        · exact h h1
      · intro h hmem
        exact h (Or.inr hmem)

theorem assocFind_isSome {α : Type} {l : List (String × α)} {key : String} :
    (assocFind l key).isSome = true ↔ key ∈ l.map Prod.fst := by
  rcases h : assocFind l key with _ | v
  · simp only [Option.isSome_none]
    constructor
    · intro h1; cases h1
    · intro h1
      exact absurd h1 (assocFind_eq_none.1 h)
  · simp only [Option.isSome_some, true_iff]
    by_contra hmem
    rw [assocFind_eq_none.2 hmem] at h
    cases h

theorem assocFind_mem {α : Type} {l : List (String × α)} {key : String} {v : α}
    (h : assocFind l key = some v) : (key, v) ∈ l := by
  induction l with
  | nil => cases h
  | cons p rest ih =>
    obtain ⟨k, w⟩ := p
    by_cases hk : k = key
    · rw [assocFind, if_pos hk] at h
      subst hk
      cases h
      exact List.mem_cons_self _ _
    · rw [assocFind, if_neg hk] at h
      exact List.mem_cons_of_mem _ (ih h)

theorem map_fst_updateEntry {α : Type} (f : α → α) (l : List (String × α)) (key : String) :
    (updateEntry f l key).map Prod.fst = l.map Prod.fst := by
  induction l with
  | nil => rfl
  | cons p rest ih =>
    obtain ⟨k, v⟩ := p
    by_cases hk : k = key
    · simp [updateEntry, hk, ih]
    · simp [updateEntry, hk, ih]

theorem assocFind_updateEntry_same {α : Type} (f : α → α) (l : List (String × α)) (key : String) :
    assocFind (updateEntry f l key) key = (assocFind l key).map f := by
  induction l with
  | nil => rfl
  | cons p rest ih =>
    obtain ⟨k, v⟩ := p
    by_cases hk : k = key
    · simp [updateEntry, assocFind, hk]
    · simp [updateEntry, assocFind, hk, ih]

theorem assocFind_updateEntry_other {α : Type} (f : α → α) (l : List (String × α))
    {key key' : String} (h : key' ≠ key) :
    assocFind (updateEntry f l key) key' = assocFind l key' := by
  induction l with
  | nil => rfl
  | cons p rest ih =>
    obtain ⟨k, v⟩ := p
    by_cases hk : k = key
    · have hk' : k ≠ key' := by
        intro he
        exact h (by rw [← he, hk])
      rw [updateEntry, if_pos hk, assocFind, assocFind, if_neg hk', if_neg hk']
      exact ih
    · rw [updateEntry, if_neg hk, assocFind, assocFind]
      by_cases hk2 : k = key'
      · rw [if_pos hk2, if_pos hk2]
      · rw [if_neg hk2, if_neg hk2]
        exact ih

theorem assocFind_append_left {α : Type} {l₁ : List (String × α)} (l₂ : List (String × α))
    {key : String} {v : α} (h : assocFind l₁ key = some v) :
    assocFind (l₁ ++ l₂) key = some v := by
  induction l₁ with
  | nil => cases h
  | cons p rest ih =>
    obtain ⟨k, w⟩ := p
    by_cases hk : k = key
    · rw [assocFind, if_pos hk] at h
      rw [List.cons_append, assocFind, if_pos hk]
      exact h
    · rw [assocFind, if_neg hk] at h
      rw [List.cons_append, assocFind, if_neg hk]
      exact ih h

theorem assocFind_append_fresh {α : Type} {l₁ : List (String × α)} {key : String}
    (h : assocFind l₁ key = none) (p : String × α) :
    assocFind (l₁ ++ [p]) key = (if p.1 = key then some p.2 else none) := by
  induction l₁ with
  | nil => simp [assocFind]
  | cons q rest ih =>
    obtain ⟨k, w⟩ := q
    by_cases hk : k = key
    · rw [assocFind, if_pos hk] at h
      cases h
    · rw [assocFind, if_neg hk] at h
      rw [List.cons_append, assocFind, if_neg hk]
      exact ih h

theorem updateEntry_mem_cases {α : Type} {f : α → α} {l : List (String × α)} {key : String}
    {q : String × α} (h : q ∈ updateEntry f l key) :
    q ∈ l ∨ ∃ v, (q.1, v) ∈ l ∧ q = (q.1, f v) := by
  induction l with
  | nil => cases h
  | cons p rest ih =>
    obtain ⟨k, v⟩ := p
    by_cases hk : k = key
    · rw [updateEntry, if_pos hk] at h
      rcases List.mem_cons.1 h with h1 | h1
      · right
        exact ⟨v, by simp [h1], by simp [h1]⟩
      · rcases ih h1 with h2 | h2
        · exact Or.inl (List.mem_cons_of_mem _ h2)
        · rcases h2 with ⟨w, hw1, hw2⟩
          exact Or.inr ⟨w, List.mem_cons_of_mem _ hw1, hw2⟩
    · rw [updateEntry, if_neg hk] at h
      rcases List.mem_cons.1 h with h1 | h1
      · exact Or.inl (h1 ▸ List.mem_cons_self _ _)
      · rcases ih h1 with h2 | h2
        · exact Or.inl (List.mem_cons_of_mem _ h2)
        · rcases h2 with ⟨w, hw1, hw2⟩
          exact Or.inr ⟨w, List.mem_cons_of_mem _ hw1, hw2⟩

/-- Lookup of a node in the graph's task map. -/
def findTask (g : TaskGraph) (key : String) : Option ScheduledTask :=
  assocFind g.allTasks key

/-- Totalised node lookup (well-formedness hypotheses keep the default
from ever being read where it matters). -/
def taskOf (g : TaskGraph) (key : String) : ScheduledTask :=
  (findTask g key).getD defaultScheduledTask

/-- The key set of the node map. -/
def mapKeys (g : TaskGraph) : List String :=
  g.allTasks.map Prod.fst

/-- Insert a freshly created node (models `this.allTasks[key] = {...}`). -/
def insertTask (g : TaskGraph) (key : String) (t : ScheduledTask) : TaskGraph :=
  { g with allTasks := g.allTasks ++ [(key, t)] }

/-- Append a dependency key to a node (models `dependencies.push(key)`). -/
def pushDep (g : TaskGraph) (ownerKey depKey : String) : TaskGraph :=
  { g with allTasks :=
      updateEntry (fun t => { t with dependencies := t.dependencies ++ [depKey] }) g.allTasks ownerKey }

/-- Like `pushDep` when a dependencies array was passed (the optional
chaining `dependencies?.push(key)` of the source). -/
def pushDepOpt (g : TaskGraph) (owner : Option String) (depKey : String) : TaskGraph :=
  match owner with
  | some o => pushDep g o depKey
  | none => g

/-- Append a key to `sortedTaskKeys` (models `this.sortedTaskKeys.push`). -/
def pushSorted (g : TaskGraph) (key : String) : TaskGraph :=
  { g with sortedTaskKeys := g.sortedTaskKeys ++ [key] }

/-- Set a node's status (models `this.allTasks[key].status = s`). -/
def setStatus (g : TaskGraph) (key s : String) : TaskGraph :=
  { g with allTasks := updateEntry (fun t => { t with status := s }) g.allTasks key }

/-- Truthiness of `workspace.scripts[scriptName]` in JavaScript: the
script is declared and its command string is non-empty. -/
def scriptTruthy (ws : Workspace) (scriptName : String) : Bool :=
  match assocFind ws.scripts scriptName with
  | some cmd => cmd ≠ ""
  | none => false

/-- Models node's `path.isAbsolute` for the posix paths used here. -/
def isAbsolutePath (p : String) : Bool :=
  strStartsWith p "/"

/-- Models `path.join(a, b)` for the already normalised paths used here. -/
def joinPath (a b : String) : String :=
  a ++ "/" ++ b

/-- Modelled from the spec: `uniq` lives in `src/utils/uniq.js`, which is
not among the provided sources; it deduplicates keeping first
occurrences, giving the union of the per-pattern match lists. -/
def uniq : List String → List String
  | [] => []
  | x :: rest => if x ∈ rest then uniq rest else x :: uniq rest

/-- Translation of `filterPackageDirs` (TaskGraph.js lines 299-315): match
filter path globs against the package directories; empty filter keeps
all directories.  `mm` is the external `micromatch.match`. -/
def filterPackageDirs (workspaceRoot : String) (project : Project) (filterPaths : List String)
    (mm : List String → String → List String) : List String :=
  let allWorkspaceDirs := project.workspacesByDir.map Prod.fst
  if filterPaths.isEmpty then allWorkspaceDirs
  else
    uniq (filterPaths.flatMap (fun pat =>
      mm allWorkspaceDirs (if isAbsolutePath pat then pat else joinPath workspaceRoot pat)))

/-- The directories of the workspace's local dependency workspaces,
`workspace.localDependencyWorkspaceNames.map(dep => getWorkspaceByName(dep).dir)`. -/
def localDependencyDirs (cfg : Config) (ws : Workspace) : Except BuildError (List String) :=
  ws.localDependencyWorkspaceNames.mapM (fun n =>
    match cfg.project.getWorkspaceByName n with
    | some w => Except.ok w.dir
    | none => Except.error (BuildError.missingWorkspace n))

mutual

/-- Translation of the constructor-local `visit` (TaskGraph.js lines
60-126).  Fuel bounds the recursion depth; the source terminates because
every recursive step first inserts a fresh key into the map. -/
def visit (cfg : Config) : Nat → List String → RequestedTask → Workspace → TaskGraph →
    Except BuildError TaskGraph
  | 0, _, _, _, _ => Except.error BuildError.fuelExhausted
  | Nat.succ fuel, path, requestedTask, workspace, g =>
    let taskConfig := cfg.getTaskConfig workspace.dir requestedTask.scriptName
    let key := getTaskKey workspace.dir requestedTask.scriptName
    if (findTask g key).isSome then
      if key ∈ path then Except.error (BuildError.cycle (path ++ [key]))
      else Except.ok g
    else
      let path' := path ++ [key]
      let g₁ := insertTask g key
        { key := key
        , taskConfig := taskConfig
        , scriptName := requestedTask.scriptName
        , extraArgs := requestedTask.extraArgs
        , force := requestedTask.force
        , status := "pending"
        , outputFiles := []
        , dependencies := []
        , inputManifestCacheKey := none
        , workspace := workspace }
      match runsAfterLoop cfg fuel path' requestedTask workspace key taskConfig.runsAfterEntries g₁ with
      | Except.error e => Except.error e
      | Except.ok g₂ =>
        match
          (if taskConfig.execution = "dependent" then
            depLoop cfg fuel path' requestedTask key workspace.localDependencyWorkspaceNames g₂
          else Except.ok g₂) with
        | Except.error e => Except.error e
        | Except.ok g₃ => Except.ok (pushSorted g₃ key)

/-- The loop over `taskConfig.runsAfterEntries` inside `visit`
(TaskGraph.js lines 85-109): compute the filter paths for the entry's
scope and enqueue the upstream script. -/
def runsAfterLoop (cfg : Config) : Nat → List String → RequestedTask → Workspace → String →
    List (String × RunsAfterConfig) → TaskGraph → Except BuildError TaskGraph
  | 0, _, _, _, _, _, _ => Except.error BuildError.fuelExhausted
  | Nat.succ _, _, _, _, _, [], g => Except.ok g
  | Nat.succ fuel, path, requestedTask, workspace, ownerKey,
      (upstreamScriptName, upstreamScriptConfig) :: rest, g =>
    match
      (if upstreamScriptConfig.scope = "self-and-dependencies" then
        match localDependencyDirs cfg workspace with
        | Except.ok dirs => Except.ok (workspace.dir :: dirs)
        | Except.error e => Except.error e
      else if upstreamScriptConfig.scope = "self-only" then Except.ok [workspace.dir]
      else Except.ok ([] : List String)) with
    | Except.error e => Except.error e
    | Except.ok filterPaths =>
      match
        enqueueTask cfg fuel path
          { scriptName := upstreamScriptName
          , extraArgs := []
          , force := requestedTask.force
          , filterPaths := filterPaths }
          (some ownerKey) g with
      | Except.error e => Except.error e
      | Except.ok g' =>
        runsAfterLoop cfg fuel path requestedTask workspace ownerKey rest g'

/-- Translation of the constructor-local `enqueueTask` (TaskGraph.js
lines 135-163).  `owner` is the optional dependencies array that receives
the keys of the enqueued tasks, identified by its owning node's key. -/
def enqueueTask (cfg : Config) : Nat → List String → RequestedTask → Option String → TaskGraph →
    Except BuildError TaskGraph
  | 0, _, _, _, _ => Except.error BuildError.fuelExhausted
  | Nat.succ fuel, path, requestedTask, owner, g =>
    if cfg.isTopLevelScript requestedTask.scriptName then
      let key := getTaskKey cfg.project.root.dir requestedTask.scriptName
      visit cfg fuel path requestedTask cfg.project.root (pushDepOpt g owner key)
    else
      let dirs := filterPackageDirs cfg.project.root.dir cfg.project requestedTask.filterPaths cfg.mm
      visitDirs cfg fuel path requestedTask owner dirs g

/-- The loop over the filtered package directories inside `enqueueTask`
(TaskGraph.js lines 152-162). -/
def visitDirs (cfg : Config) : Nat → List String → RequestedTask → Option String → List String →
    TaskGraph → Except BuildError TaskGraph
  | 0, _, _, _, _, _ => Except.error BuildError.fuelExhausted
  | Nat.succ _, _, _, _, [], g => Except.ok g
  | Nat.succ fuel, path, requestedTask, owner, dir :: rest, g =>
    match cfg.project.getWorkspaceByDir dir with
    | none => Except.error (BuildError.missingWorkspace dir)
    | some workspace =>
      if scriptTruthy workspace requestedTask.scriptName then
        let key := getTaskKey dir requestedTask.scriptName
        match visit cfg fuel path requestedTask workspace (pushDepOpt g owner key) with
        | Except.error e => Except.error e
        | Except.ok g' => visitDirs cfg fuel path requestedTask owner rest g'
      else visitDirs cfg fuel path requestedTask owner rest g

/-- The loop over local dependency workspaces for `dependent` execution
inside `visit` (TaskGraph.js lines 111-123). -/
def depLoop (cfg : Config) : Nat → List String → RequestedTask → String → List String →
    TaskGraph → Except BuildError TaskGraph
  | 0, _, _, _, _, _ => Except.error BuildError.fuelExhausted
  | Nat.succ _, _, _, _, [], g => Except.ok g
  | Nat.succ fuel, path, requestedTask, ownerKey, workspaceName :: rest, g =>
    match cfg.project.getWorkspaceByName workspaceName with
    | none => Except.error (BuildError.missingWorkspace workspaceName)
    | some dependency =>
      if scriptTruthy dependency requestedTask.scriptName then
        let depKey := getTaskKey dependency.dir requestedTask.scriptName
        match visit cfg fuel path requestedTask dependency (pushDep g ownerKey depKey) with
        | Except.error e => Except.error e
        | Except.ok g' => depLoop cfg fuel path requestedTask ownerKey rest g'
      else depLoop cfg fuel path requestedTask ownerKey rest g

end

/-- The loop over the requested tasks in the constructor body
(TaskGraph.js lines 165-167). -/
def requestedLoop (cfg : Config) (fuel : Nat) : List RequestedTask → TaskGraph →
    Except BuildError TaskGraph
  | [], g => Except.ok g
  | rt :: rest, g =>
    match enqueueTask cfg fuel [] rt none g with
    | Except.error e => Except.error e
    | Except.ok g' => requestedLoop cfg fuel rest g'

/-- The `TaskGraph` constructor: starting from empty maps, enqueue every
requested task. -/
def buildTaskGraph (cfg : Config) (fuel : Nat) (requestedTasks : List RequestedTask) :
    Except BuildError TaskGraph :=
  requestedLoop cfg fuel requestedTasks { allTasks := [], sortedTaskKeys := [] }

/-- Translation of the `maxConcurrentTasks` computation (TaskGraph.js
lines 17-23): the forcing environment variable wins, then test mode,
else `max(1, numCpus - 1)`. -/
def maxConcurrentTasks (forceParallelEnv isTest : Bool) (numCpus : Nat) : Nat :=
  if forceParallelEnv then 2
  else if isTest then 1
  else max 1 (numCpus - 1)

/-- Translation of `TaskGraph.isTaskReady` (lines 174-180). -/
def isTaskReady (g : TaskGraph) (key : String) : Bool :=
  let task := taskOf g key
  task.status = "pending" &&
    task.dependencies.all (fun dep => strStartsWith (taskOf g dep).status "success")

/-- The stateful duplicate filter inside `allReadyTaskKeys` (lines
184-199): keep the first ready task per script name among tasks whose
config has `parallel` false. -/
def dropUnparallelizable (g : TaskGraph) : List String → List String → List String
  | _, [] => []
  | seen, key :: rest =>
    let t := taskOf g key
    if t.taskConfig.parallel then key :: dropUnparallelizable g seen rest
    else if t.scriptName ∈ seen then dropUnparallelizable g seen rest
    else key :: dropUnparallelizable g (t.scriptName :: seen) rest

/-- Translation of `TaskGraph.allReadyTaskKeys` (lines 182-201): ready
tasks in sorted-key order, the non-parallel duplicate filter, then the
JavaScript `.sort()`. -/
def allReadyTaskKeys (g : TaskGraph) : List String :=
  sortKeys (dropUnparallelizable g [] (g.sortedTaskKeys.filter (fun key => isTaskReady g key)))

/-- Translation of `TaskGraph.allRunningTaskKeys` (lines 224-226). -/
def allRunningTaskKeys (g : TaskGraph) : List String :=
  g.sortedTaskKeys.filter (fun key => (taskOf g key).status = "running")

/-- Set each listed key's status to `"running"`, in order (the loop body
`this.allTasks[taskKey].status = 'running'` of `tick`). -/
def startTasks (g : TaskGraph) : List String → TaskGraph
  | [] => g
  | key :: rest => startTasks (setStatus g key "running") rest

/-- Translation of the state effect of one `tick` (lines 241-271): if
workers are free and tasks are ready, transition the first
`min(maxConcurrent - running, ready)` ready keys to `"running"`.  The
branches that merely resolve or wait leave the statuses unchanged. -/
def tick (maxConcurrent : Nat) (g : TaskGraph) : TaskGraph :=
  let runningTasks := allRunningTaskKeys g
  let readyTasks := allReadyTaskKeys g
  if runningTasks.length ≥ maxConcurrent then g
  else if readyTasks.isEmpty then g
  else
    let numTasksToStart := min (maxConcurrent - runningTasks.length) readyTasks.length
    startTasks g (readyTasks.take numTasksToStart)

/-- The status `runTask` assigns on completion (lines 275-283). -/
def statusForOutcome (didRunTask didSucceed : Bool) : String :=
  if didSucceed then (if didRunTask then "success:eager" else "success:lazy") else "failure"

/-- Record a worker's completion: the task that was `running` gets its
terminal status. -/
def completeTask (g : TaskGraph) (key : String) (didRunTask didSucceed : Bool) : TaskGraph :=
  setStatus g key (statusForOutcome didRunTask didSucceed)

/-- One observable step of `runAllTasks` after the initial tick: some
running task completes with some outcome, then `tick` re-enters the
scheduler. -/
inductive SchedStep (maxConcurrent : Nat) : TaskGraph → TaskGraph → Prop
  | complete (g : TaskGraph) (key : String) (didRunTask didSucceed : Bool)
      (hrun : (taskOf g key).status = "running") :
      SchedStep maxConcurrent g (tick maxConcurrent (completeTask g key didRunTask didSucceed))

/-- States visited by `runAllTasks` from initial graph `g₀`: the initial
`tick`, then any sequence of completion steps. -/
def Reachable (maxConcurrent : Nat) (g₀ g : TaskGraph) : Prop :=
  Relation.ReflTransGen (SchedStep maxConcurrent) (tick maxConcurrent g₀) g

/-- The filesystem state `cacheOutputs` manipulates: the files currently
in this task's cached-output directory (project-root-relative path and
mtime) and the output manifest contents, if present. -/
structure CacheFs where
  outDirFiles : List (String × Nat)
  outManifest : Option (List (String × Nat))
deriving DecidableEq

/-- Result of `cacheOutputs`: the filesystem state after the call, the
`task.outputFiles` assignment, and the propagated error message if the
call threw. -/
structure CacheOutcome where
  fs : CacheFs
  taskOutputFiles : List String
  errorMsg : Option String
deriving DecidableEq

/-- The copy loop of `cacheOutputs`: per file, reject paths that escape
the project root, stat the source (missing file throws), copy preserving
mtime, and buffer the manifest line.  Returns the filesystem reached, the
buffered manifest lines, and the error that aborted the loop, if any. -/
def copyOutputFiles (wsFiles : String → Option Nat) :
    List String → CacheFs → List (String × Nat) → CacheFs × List (String × Nat) × Option String
  | [], fs, lines => (fs, lines, none)
  | file :: rest, fs, lines =>
    if strStartsWith file ".." then
      (fs, lines, some ("output file is outside of workspace: " ++ file))
    else
      match wsFiles file with
      | none => (fs, lines, some ("ENOENT: no such file: " ++ file))
      | some mtime =>
        copyOutputFiles wsFiles rest
          { fs with outDirFiles := fs.outDirFiles ++ [(file, mtime)] }
          (lines ++ [(file, mtime)])

/-- Translation of `cacheOutputs`: remove the previous cache directory
and output manifest, return early on an empty output list, otherwise copy
each output file and finally close (atomically write) the manifest.  The
lazily created manifest stream is only persisted by the final close, so
an error while copying leaves no manifest. -/
def cacheOutputs (wsFiles : String → Option Nat) (outputFiles : List String) (_fs : CacheFs) :
    CacheOutcome :=
  let fs₁ : CacheFs := { outDirFiles := [], outManifest := none }
  if outputFiles.isEmpty then
    { fs := fs₁, taskOutputFiles := [], errorMsg := none }
  else
    match copyOutputFiles wsFiles outputFiles fs₁ [] with
    | (fs₂, lines, none) =>
      { fs := { fs₂ with outManifest := some lines }
      , taskOutputFiles := outputFiles
      , errorMsg := none }
    | (fs₂, _, some e) =>
      { fs := fs₂, taskOutputFiles := outputFiles, errorMsg := some e }

/-- Well-formedness of the project model: the workspace map stores each
workspace under its own directory (spec: identity = directory). -/
def ConfigWF (cfg : Config) : Prop :=
  ∀ q ∈ cfg.project.workspacesByDir, q.2.dir = q.1

/-- Dependency closure up to an allowance list: every dependency key of
every node resolves in the map, except possibly keys in `extra` (used for
the window between `dependencies.push(key)` and `visit`). -/
def DepsClosedExc (g : TaskGraph) (extra : List String) : Prop :=
  ∀ q ∈ g.allTasks, ∀ d ∈ q.2.dependencies, d ∈ mapKeys g ∨ d ∈ extra

/-- `sortedTaskKeys` is a topological order: every dependency of a listed
node occurs in the list, strictly earlier. -/
def TopoSorted (g : TaskGraph) : Prop :=
  ∀ k ∈ g.sortedTaskKeys, ∀ d ∈ (taskOf g k).dependencies,
    d ∈ g.sortedTaskKeys ∧ keyIdx d g.sortedTaskKeys < keyIdx k g.sortedTaskKeys

/-- The construction invariant, relative to the current visitation path
`p`: keys are unique, the map's key set is the sorted list plus the path,
path keys are not yet in the sorted list, and the sorted list is
topologically ordered. -/
def GraphInv (p : List String) (g : TaskGraph) : Prop :=
  (mapKeys g).Nodup ∧ g.sortedTaskKeys.Nodup ∧ p.Nodup ∧
  (∀ k ∈ mapKeys g, k ∈ g.sortedTaskKeys ∨ k ∈ p) ∧
  (∀ k ∈ g.sortedTaskKeys, k ∈ mapKeys g) ∧
  (∀ k ∈ p, k ∈ mapKeys g) ∧
  (∀ k ∈ p, k ∉ g.sortedTaskKeys) ∧
  TopoSorted g

/-- Frame property: a construction step only ever adds nodes and appends
to the sorted list; pre-existing nodes are untouched. -/
def FrameAll (g g' : TaskGraph) : Prop :=
  (∀ k ∈ mapKeys g, k ∈ mapKeys g') ∧
  (∃ tl, g'.sortedTaskKeys = g.sortedTaskKeys ++ tl) ∧
  (∀ k ∈ mapKeys g, findTask g' k = findTask g k)

/-- Frame property relative to an optional owner node: pre-existing nodes
other than the owner are untouched, and the owner only has dependency
keys appended, all of which end up in the sorted list. -/
def FrameOwner (owner : Option String) (g g' : TaskGraph) : Prop :=
  (∀ k ∈ mapKeys g, k ∈ mapKeys g') ∧
  (∃ tl, g'.sortedTaskKeys = g.sortedTaskKeys ++ tl) ∧
  (∀ k ∈ mapKeys g, some k ≠ owner → findTask g' k = findTask g k) ∧
  (∀ o, owner = some o → ∃ newDeps : List String,
    (∀ t, findTask g o = some t →
      findTask g' o = some { t with dependencies := t.dependencies ++ newDeps }) ∧
    ∀ d ∈ newDeps, d ∈ g'.sortedTaskKeys)

theorem taskOf_eq_of_findTask {g : TaskGraph} {k : String} {t : ScheduledTask}
    (h : findTask g k = some t) : taskOf g k = t := by
  simp [taskOf, h]

theorem mapKeys_insertTask (g : TaskGraph) (k : String) (t : ScheduledTask) :
    mapKeys (insertTask g k t) = mapKeys g ++ [k] := by
  simp [mapKeys, insertTask]

theorem sorted_insertTask (g : TaskGraph) (k : String) (t : ScheduledTask) :
    (insertTask g k t).sortedTaskKeys = g.sortedTaskKeys := rfl

theorem findTask_insertTask_self {g : TaskGraph} {k : String} (t : ScheduledTask)
    (h : findTask g k = none) : findTask (insertTask g k t) k = some t := by
  rw [findTask, insertTask]
  rw [assocFind_append_fresh h (k, t)]
  simp

theorem findTask_insertTask_of_mem {g : TaskGraph} {k k' : String} (t : ScheduledTask)
    (h : k' ∈ mapKeys g) : findTask (insertTask g k t) k' = findTask g k' := by
  rcases hf : findTask g k' with _ | v
  · exact absurd h (by
      have := assocFind_eq_none.1 hf
      exact this)
  · exact assocFind_append_left _ hf

theorem mapKeys_pushDep (g : TaskGraph) (o d : String) :
    mapKeys (pushDep g o d) = mapKeys g := by
  simp [mapKeys, pushDep, map_fst_updateEntry]

theorem sorted_pushDep (g : TaskGraph) (o d : String) :
    (pushDep g o d).sortedTaskKeys = g.sortedTaskKeys := rfl

theorem findTask_pushDep_same (g : TaskGraph) (o d : String) :
    findTask (pushDep g o d) o =
      (findTask g o).map (fun t => { t with dependencies := t.dependencies ++ [d] }) := by
  rw [findTask, pushDep]
  exact assocFind_updateEntry_same _ _ _

theorem findTask_pushDep_other (g : TaskGraph) {o k : String} (d : String) (h : k ≠ o) :
    findTask (pushDep g o d) k = findTask g k := by
  rw [findTask, pushDep]
  exact assocFind_updateEntry_other _ _ h

theorem mapKeys_pushSorted (g : TaskGraph) (k : String) :
    mapKeys (pushSorted g k) = mapKeys g := rfl

theorem findTask_pushSorted (g : TaskGraph) (k k' : String) :
    findTask (pushSorted g k) k' = findTask g k' := rfl

theorem sorted_pushSorted (g : TaskGraph) (k : String) :
    (pushSorted g k).sortedTaskKeys = g.sortedTaskKeys ++ [k] := rfl

theorem nodup_append_singleton {l : List String} {k : String} (hl : l.Nodup) (hk : k ∉ l) :
    (l ++ [k]).Nodup := by
  rw [List.nodup_append]
  refine ⟨hl, List.nodup_singleton k, ?_⟩
  intro a ha hb
  rcases List.mem_singleton.1 hb with rfl
  exact hk ha

theorem DepsClosedExc_weaken {g : TaskGraph} {e e' : List String} (h : DepsClosedExc g e)
    (he : ∀ x ∈ e, x ∈ e') : DepsClosedExc g e' := by
  intro q hq d hd
  rcases h q hq d hd with h1 | h1
  · exact Or.inl h1
  · exact Or.inr (he d h1)

theorem DepsClosedExc_pushDep {g : TaskGraph} {e : List String} {o d : String}
    (h : DepsClosedExc g e) : DepsClosedExc (pushDep g o d) (d :: e) := by
  intro q hq d' hd'
  have hkeys := mapKeys_pushDep g o d
  rcases updateEntry_mem_cases hq with h1 | h1
  · rcases h q h1 d' hd' with h2 | h2
    · exact Or.inl (hkeys ▸ h2)
    · exact Or.inr (List.mem_cons_of_mem _ h2)
  · rcases h1 with ⟨v, hv1, hv2⟩
    have : q.2 = { v with dependencies := v.dependencies ++ [d] } := by
      have := congrArg Prod.snd hv2
      simpa using this
    rw [this] at hd'
    simp only at hd'
    rcases List.mem_append.1 hd' with h2 | h2
    · rcases h (q.1, v) hv1 d' h2 with h3 | h3
      · exact Or.inl (hkeys ▸ h3)
      · exact Or.inr (List.mem_cons_of_mem _ h3)
    · rcases List.mem_singleton.1 h2 with rfl
      exact Or.inr (List.mem_cons_self _ _)

theorem DepsClosedExc_insert {g : TaskGraph} {key : String} {t : ScheduledTask}
    (h : DepsClosedExc g [key]) (ht : t.dependencies = []) :
    DepsClosedExc (insertTask g key t) [] := by
  intro q hq d hd
  have hkeys := mapKeys_insertTask g key t
  rcases List.mem_append.1 hq with h1 | h1
  · rcases h q h1 d hd with h2 | h2
    · exact Or.inl (by rw [hkeys]; exact List.mem_append_left _ h2)
    · rcases List.mem_singleton.1 h2 with rfl
      exact Or.inl (by rw [hkeys]; exact List.mem_append_right _ (List.mem_singleton_self _))
  · rcases List.mem_singleton.1 h1 with rfl
    rw [ht] at hd
    cases hd

theorem DepsClosedExc_mem {g : TaskGraph} {key : String}
    (h : DepsClosedExc g [key]) (hk : key ∈ mapKeys g) : DepsClosedExc g [] := by
  intro q hq d hd
  rcases h q hq d hd with h1 | h1
  · exact Or.inl h1
  · rcases List.mem_singleton.1 h1 with rfl
    exact Or.inl hk

theorem DepsClosedExc_pushSorted {g : TaskGraph} {e : List String} {k : String}
    (h : DepsClosedExc g e) : DepsClosedExc (pushSorted g k) e := h

theorem GraphInv_pushDep {p : List String} {g : TaskGraph} {o d : String}
    (h : GraphInv p g) (ho : o ∈ p) : GraphInv p (pushDep g o d) := by
  obtain ⟨h1, h2, h3, h4, h5, h6, h7, h8⟩ := h
  have hkeys := mapKeys_pushDep g o d
  have hsorted := sorted_pushDep g o d
  refine ⟨hkeys ▸ h1, hsorted ▸ h2, h3, ?_, ?_, ?_, ?_, ?_⟩
  · intro k hk; exact h4 k (hkeys ▸ hk)
  · intro k hk; rw [hkeys]; exact h5 k hk
  · intro k hk; rw [hkeys]; exact h6 k hk
  · intro k hk; rw [hsorted]; exact h7 k hk
  · intro k hk dd hdd
    have hko : k ≠ o := by
      intro he
      exact h7 o ho (he ▸ hk)
    rw [sorted_pushDep] at hk
    have hfind : findTask (pushDep g o d) k = findTask g k := findTask_pushDep_other g d hko
    have : taskOf (pushDep g o d) k = taskOf g k := by
      rw [taskOf, taskOf, hfind]
    rw [this] at hdd
    rw [sorted_pushDep]
    exact h8 k hk dd hdd

theorem GraphInv_insert {p : List String} {g : TaskGraph} {key : String} {t : ScheduledTask}
    (h : GraphInv p g) (hfresh : findTask g key = none) :
    GraphInv (p ++ [key]) (insertTask g key t) := by
  obtain ⟨h1, h2, h3, h4, h5, h6, h7, h8⟩ := h
  have hkey : key ∉ mapKeys g := assocFind_eq_none.1 hfresh
  have hkeyp : key ∉ p := fun hp => hkey (h6 key hp)
  have hkeys := mapKeys_insertTask g key t
  refine ⟨?_, h2, nodup_append_singleton h3 hkeyp, ?_, ?_, ?_, ?_, ?_⟩
  · rw [hkeys]; exact nodup_append_singleton h1 hkey
  · intro k hk
    rw [hkeys] at hk
    rcases List.mem_append.1 hk with h9 | h9
    · rcases h4 k h9 with h10 | h10
      · exact Or.inl h10
      · exact Or.inr (List.mem_append_left _ h10)
    · rcases List.mem_singleton.1 h9 with rfl
      exact Or.inr (List.mem_append_right _ (List.mem_singleton_self _))
  · intro k hk
    rw [hkeys]
    exact List.mem_append_left _ (h5 k hk)
  · intro k hk
    rw [hkeys]
    rcases List.mem_append.1 hk with h9 | h9
    · exact List.mem_append_left _ (h6 k h9)
    · rcases List.mem_singleton.1 h9 with rfl
      exact List.mem_append_right _ (List.mem_singleton_self _)
  · intro k hk
    rcases List.mem_append.1 hk with h9 | h9
    · exact h7 k h9
    · rcases List.mem_singleton.1 h9 with rfl
      intro hsk
      exact hkey (h5 _ hsk)
  · intro k hk dd hdd
    have hkmem : k ∈ mapKeys g := h5 k hk
    have : taskOf (insertTask g key t) k = taskOf g k := by
      rw [taskOf, taskOf, findTask_insertTask_of_mem t hkmem]
    rw [this] at hdd
    exact h8 k hk dd hdd

theorem GraphInv_pushSorted {p : List String} {g : TaskGraph} {key : String}
    (h : GraphInv (p ++ [key]) g)
    (hdeps : ∀ d ∈ (taskOf g key).dependencies, d ∈ g.sortedTaskKeys) :
    GraphInv p (pushSorted g key) := by
  obtain ⟨h1, h2, h3, h4, h5, h6, h7, h8⟩ := h
  have hkeyp : key ∉ p := by
    have := List.nodup_append.1 h3
    intro hp
    exact this.2.2 hp (List.mem_singleton_self _)
  have hkeyS : key ∉ g.sortedTaskKeys :=
    h7 key (List.mem_append_right _ (List.mem_singleton_self _))
  have hkeyM : key ∈ mapKeys g :=
    h6 key (List.mem_append_right _ (List.mem_singleton_self _))
  have hsorted := sorted_pushSorted g key
  refine ⟨h1, ?_, (List.nodup_append.1 h3).1, ?_, ?_, ?_, ?_, ?_⟩
  · rw [hsorted]; exact nodup_append_singleton h2 hkeyS
  · intro k hk
    rcases h4 k hk with h9 | h9
    · exact Or.inl (by rw [hsorted]; exact List.mem_append_left _ h9)
    · rcases List.mem_append.1 h9 with h10 | h10
      · exact Or.inr h10
      · rcases List.mem_singleton.1 h10 with rfl
        exact Or.inl (by rw [hsorted]; exact List.mem_append_right _ (List.mem_singleton_self _))
  · intro k hk
    rw [hsorted] at hk
    rcases List.mem_append.1 hk with h9 | h9
    · exact h5 k h9
    · rcases List.mem_singleton.1 h9 with rfl
      exact hkeyM
  · intro k hk
    exact h6 k (List.mem_append_left _ hk)
  · intro k hk
    rw [hsorted]
    intro hmem
    rcases List.mem_append.1 hmem with h9 | h9
    · exact h7 k (List.mem_append_left _ hk) h9
    · rcases List.mem_singleton.1 h9 with rfl
      exact hkeyp hk
  · intro k hk dd hdd
    have htk : taskOf (pushSorted g key) k = taskOf g k := by
      rw [taskOf, taskOf, findTask_pushSorted]
    rw [htk] at hdd
    rw [hsorted] at hk ⊢
    rcases List.mem_append.1 hk with h9 | h9
    · obtain ⟨hd1, hd2⟩ := h8 k h9 dd hdd
      refine ⟨List.mem_append_left _ hd1, ?_⟩
      rw [keyIdx_append_of_mem hd1, keyIdx_append_of_mem h9]
      exact hd2
    · rcases List.mem_singleton.1 h9 with rfl
      have hdmem : dd ∈ g.sortedTaskKeys := hdeps dd hdd
      refine ⟨List.mem_append_left _ hdmem, ?_⟩
      rw [keyIdx_append_of_mem hdmem, keyIdx_append_of_not_mem hkeyS]
      have : keyIdx dd g.sortedTaskKeys < g.sortedTaskKeys.length :=
        keyIdx_lt_length_of_mem hdmem
      simp [keyIdx]
      omega

theorem FrameAll_refl (g : TaskGraph) : FrameAll g g :=
  ⟨fun _ hk => hk, ⟨[], by simp⟩, fun _ _ => rfl⟩

theorem FrameAll_comp {g₁ g₂ g₃ : TaskGraph} (h₁ : FrameAll g₁ g₂) (h₂ : FrameAll g₂ g₃) :
    FrameAll g₁ g₃ := by
  obtain ⟨m₁, ⟨tl₁, hs₁⟩, f₁⟩ := h₁
  obtain ⟨m₂, ⟨tl₂, hs₂⟩, f₂⟩ := h₂
  refine ⟨fun k hk => m₂ k (m₁ k hk), ⟨tl₁ ++ tl₂, ?_⟩, fun k hk => ?_⟩
  · rw [hs₂, hs₁, List.append_assoc]
  · rw [f₂ k (m₁ k hk), f₁ k hk]

theorem FrameAll_insertTask (g : TaskGraph) (k : String) (t : ScheduledTask) :
    FrameAll g (insertTask g k t) := by
  refine ⟨fun k' hk => ?_, ⟨[], by simp [sorted_insertTask]⟩, fun k' hk => ?_⟩
  · rw [mapKeys_insertTask]; exact List.mem_append_left _ hk
  · exact findTask_insertTask_of_mem t hk

theorem FrameAll_pushSorted (g : TaskGraph) (k : String) :
    FrameAll g (pushSorted g k) :=
  ⟨fun _ hk => hk, ⟨[k], rfl⟩, fun _ _ => rfl⟩

theorem FrameAll_to_FrameOwner {g g' : TaskGraph} (owner : Option String)
    (h : FrameAll g g') : FrameOwner owner g g' := by
  obtain ⟨m, hs, f⟩ := h
  refine ⟨m, hs, fun k hk _ => f k hk, fun o ho => ⟨[], fun t ht => ?_, by simp⟩⟩
  have hmem : o ∈ mapKeys g := assocFind_isSome.1 (by rw [findTask] at ht; simp [findTask, ht])
  rw [f o hmem, ht]
  simp

theorem FrameOwner_comp {o : String} {g₁ g₂ g₃ : TaskGraph}
    (h₁ : FrameOwner (some o) g₁ g₂) (h₂ : FrameOwner (some o) g₂ g₃) :
    FrameOwner (some o) g₁ g₃ := by
  obtain ⟨m₁, ⟨tl₁, hs₁⟩, f₁, d₁⟩ := h₁
  obtain ⟨m₂, ⟨tl₂, hs₂⟩, f₂, d₂⟩ := h₂
  obtain ⟨nd₁, hnd₁, hin₁⟩ := d₁ o rfl
  obtain ⟨nd₂, hnd₂, hin₂⟩ := d₂ o rfl
  refine ⟨fun k hk => m₂ k (m₁ k hk), ⟨tl₁ ++ tl₂, by rw [hs₂, hs₁, List.append_assoc]⟩,
    fun k hk hne => by rw [f₂ k (m₁ k hk) hne, f₁ k hk hne], fun o' ho' => ?_⟩
  cases ho'
  refine ⟨nd₁ ++ nd₂, fun t ht => ?_, fun d hd => ?_⟩
  · have h2 := hnd₁ t ht
    have h3 := hnd₂ _ h2
    rw [h3]
    simp [List.append_assoc]
  · rcases List.mem_append.1 hd with h4 | h4
    · have := hin₁ d h4
      rw [hs₂]
      exact List.mem_append_left _ this
    · exact hin₂ d h4

theorem FrameOwner_push_visit {g g' : TaskGraph} {o d : String}
    (hall : FrameAll (pushDep g o d) g') (hd : d ∈ g'.sortedTaskKeys) :
    FrameOwner (some o) g g' := by
  obtain ⟨m, ⟨tl, hs⟩, f⟩ := hall
  have hkeys := mapKeys_pushDep g o d
  refine ⟨fun k hk => m k (hkeys ▸ hk), ⟨tl, by rw [hs, sorted_pushDep]⟩,
    fun k hk hne => ?_, fun o' ho' => ?_⟩
  · have hko : k ≠ o := fun he => hne (he ▸ rfl)
    rw [f k (hkeys ▸ hk), findTask_pushDep_other g d hko]
  · cases ho'
    refine ⟨[d], fun t ht => ?_, fun d' hd' => ?_⟩
    · have homem : o ∈ mapKeys g := assocFind_isSome.1 (by simp [findTask] at ht ⊢; simp [ht])
      rw [f o (hkeys ▸ homem), findTask_pushDep_same, ht]
      rfl
    · rcases List.mem_singleton.1 hd' with rfl
      exact hd

/-- The target-directory resolution of `enqueueTask`, written after the
spec's words: a top-level script targets only the project root; otherwise
the filter paths select package directories (glob matches of each
pattern, absolute patterns used directly, relative ones joined to the
project root; empty filter keeps all), of which only workspaces declaring
the requested script are kept. -/
def resolvedTargetDirs (cfg : Config) (rt : RequestedTask) : List String :=
  if cfg.isTopLevelScript rt.scriptName then [cfg.project.root.dir]
  else
    (filterPackageDirs cfg.project.root.dir cfg.project rt.filterPaths cfg.mm).filter
      (fun d => match cfg.project.getWorkspaceByDir d with
        | some w => scriptTruthy w rt.scriptName
        | none => false)

/-- Specification established for `visit` at a given fuel. -/
def VisitSpec (cfg : Config) (fuel : Nat) : Prop :=
  ∀ path rt ws g g', visit cfg fuel path rt ws g = Except.ok g' →
    GraphInv path g → DepsClosedExc g [getTaskKey ws.dir rt.scriptName] →
    GraphInv path g' ∧ DepsClosedExc g' [] ∧ FrameAll g g' ∧
    getTaskKey ws.dir rt.scriptName ∈ g'.sortedTaskKeys

/-- Specification established for `runsAfterLoop` at a given fuel. -/
def RunsSpec (cfg : Config) (fuel : Nat) : Prop :=
  ∀ path rt ws ownerKey entries g g',
    runsAfterLoop cfg fuel path rt ws ownerKey entries g = Except.ok g' →
    GraphInv path g → DepsClosedExc g [] → ownerKey ∈ path →
    GraphInv path g' ∧ DepsClosedExc g' [] ∧ FrameOwner (some ownerKey) g g'

/-- Specification established for `enqueueTask` at a given fuel,
including the exact dependency keys appended to the owner. -/
def EnqSpec (cfg : Config) (fuel : Nat) : Prop :=
  ∀ path rt owner g g',
    enqueueTask cfg fuel path rt owner g = Except.ok g' →
    GraphInv path g → DepsClosedExc g [] → (∀ o, owner = some o → o ∈ path) →
    GraphInv path g' ∧ DepsClosedExc g' [] ∧ FrameOwner owner g g' ∧
    (∀ o, owner = some o →
      (taskOf g' o).dependencies = (taskOf g o).dependencies ++
        (resolvedTargetDirs cfg rt).map (fun d => getTaskKey d rt.scriptName))

/-- Specification established for `visitDirs` at a given fuel. -/
def DirsSpec (cfg : Config) (fuel : Nat) : Prop :=
  ∀ path rt owner dirs g g',
    visitDirs cfg fuel path rt owner dirs g = Except.ok g' →
    GraphInv path g → DepsClosedExc g [] → (∀ o, owner = some o → o ∈ path) →
    GraphInv path g' ∧ DepsClosedExc g' [] ∧ FrameOwner owner g g' ∧
    (∀ o, owner = some o →
      (taskOf g' o).dependencies = (taskOf g o).dependencies ++
        (dirs.filter (fun d => match cfg.project.getWorkspaceByDir d with
           | some w => scriptTruthy w rt.scriptName
           | none => false)).map (fun d => getTaskKey d rt.scriptName))

/-- Specification established for `depLoop` at a given fuel. -/
def DepSpec (cfg : Config) (fuel : Nat) : Prop :=
  ∀ path rt ownerKey names g g',
    depLoop cfg fuel path rt ownerKey names g = Except.ok g' →
    GraphInv path g → DepsClosedExc g [] → ownerKey ∈ path →
    GraphInv path g' ∧ DepsClosedExc g' [] ∧ FrameOwner (some ownerKey) g g'

theorem FrameOwner_none_to_FrameAll {g g' : TaskGraph} (h : FrameOwner none g g') :
    FrameAll g g' :=
  ⟨h.1, h.2.1, fun k hk => h.2.2.1 k hk (by simp)⟩

theorem getWorkspaceByDir_dir {cfg : Config} (hcfg : ConfigWF cfg) {dir : String}
    {w : Workspace} (h : cfg.project.getWorkspaceByDir dir = some w) : w.dir = dir :=
  hcfg (dir, w) (assocFind_mem h)

theorem mem_mapKeys_iff_isSome {g : TaskGraph} {k : String} :
    k ∈ mapKeys g ↔ (findTask g k).isSome = true :=
  assocFind_isSome.symm

theorem deps_after_push_frame {g g₂ : TaskGraph} {o key : String}
    (ho : o ∈ mapKeys g) (hframe : FrameAll (pushDep g o key) g₂) :
    (taskOf g₂ o).dependencies = (taskOf g o).dependencies ++ [key] := by
  rcases ht : findTask g o with _ | t
  · exact absurd (mem_mapKeys_iff_isSome.1 ho) (by simp [ht])
  · have h₁ : findTask (pushDep g o key) o =
        some { t with dependencies := t.dependencies ++ [key] } := by
      rw [findTask_pushDep_same, ht]
      rfl
    have h₂ : findTask g₂ o = some { t with dependencies := t.dependencies ++ [key] } := by
      rw [hframe.2.2 o (by rw [mapKeys_pushDep]; exact ho), h₁]
    rw [taskOf_eq_of_findTask h₂, taskOf_eq_of_findTask ht]

theorem visitSpec_zero (cfg : Config) : VisitSpec cfg 0 := by
  intro path rt ws g g' hok
  rw [visit] at hok
  cases hok

theorem runsSpec_zero (cfg : Config) : RunsSpec cfg 0 := by
  intro path rt ws ownerKey entries g g' hok
  rw [runsAfterLoop] at hok
  cases hok

theorem enqSpec_zero (cfg : Config) : EnqSpec cfg 0 := by
  intro path rt owner g g' hok
  rw [enqueueTask] at hok
  cases hok

theorem dirsSpec_zero (cfg : Config) : DirsSpec cfg 0 := by
  intro path rt owner dirs g g' hok
  rw [visitDirs] at hok
  cases hok

theorem depSpec_zero (cfg : Config) : DepSpec cfg 0 := by
  intro path rt ownerKey names g g' hok
  rw [depLoop] at hok
  cases hok

theorem dirsSpec_succ (cfg : Config) (hcfg : ConfigWF cfg) (fuel : Nat)
    (ihV : VisitSpec cfg fuel) (ihDirs : DirsSpec cfg fuel) :
    DirsSpec cfg (Nat.succ fuel) := by
  intro path rt owner dirs g g' hok hGI hDC howner
  cases dirs with
  | nil =>
    rw [visitDirs] at hok
    cases hok
    refine ⟨hGI, hDC, FrameAll_to_FrameOwner owner (FrameAll_refl _), ?_⟩
    intro o ho
    simp
  | cons dir rest =>
    rw [visitDirs] at hok
    rcases hw : cfg.project.getWorkspaceByDir dir with _ | workspace
    · rw [hw] at hok
      cases hok
    · rw [hw] at hok
      simp only at hok
      by_cases hscript : scriptTruthy workspace rt.scriptName = true
      · rw [if_pos hscript] at hok
        rcases hv : visit cfg fuel path rt workspace
            (pushDepOpt g owner (getTaskKey dir rt.scriptName)) with e | g₂
        · rw [hv] at hok
          cases hok
        · rw [hv] at hok
          have hok₂ : visitDirs cfg fuel path rt owner rest g₂ = Except.ok g' := hok
          have hwdir : workspace.dir = dir := getWorkspaceByDir_dir hcfg hw
          cases owner with
          | none =>
            have hv' : visit cfg fuel path rt workspace g = Except.ok g₂ := hv
            obtain ⟨hGI₂, hDC₂, hF₂, hkey₂⟩ :=
              ihV path rt workspace g g₂ hv' hGI
                (DepsClosedExc_weaken hDC (by intro x hx; cases hx))
            obtain ⟨hGI', hDC', hF', hdeps'⟩ :=
              ihDirs path rt none rest g₂ g' hok₂ hGI₂ hDC₂ (by intro o ho; cases ho)
            refine ⟨hGI', hDC', ?_, ?_⟩
            · exact FrameAll_to_FrameOwner none
                (FrameAll_comp hF₂ (FrameOwner_none_to_FrameAll hF'))
            · intro o ho
              cases ho
          | some o =>
            have ho : o ∈ path := howner o rfl
            have homem : o ∈ mapKeys g := hGI.2.2.2.2.2.1 o ho
            have hGI₁ : GraphInv path (pushDep g o (getTaskKey dir rt.scriptName)) :=
              GraphInv_pushDep hGI ho
            have hDC₁ : DepsClosedExc (pushDep g o (getTaskKey dir rt.scriptName))
                [getTaskKey workspace.dir rt.scriptName] := by
              rw [hwdir]
              exact DepsClosedExc_weaken (DepsClosedExc_pushDep hDC)
                (by intro x hx; rcases List.mem_cons.1 hx with h1 | h1
                    · exact h1 ▸ List.mem_singleton_self _
                    · cases h1)
            obtain ⟨hGI₂, hDC₂, hF₂, hkey₂⟩ :=
              ihV path rt workspace _ g₂ hv hGI₁ hDC₁
            rw [hwdir] at hkey₂
            obtain ⟨hGI', hDC', hF', hdeps'⟩ :=
              ihDirs path rt (some o) rest g₂ g' hok₂ hGI₂ hDC₂
                (by intro o' ho'; cases ho'; exact ho)
            have hFO₂ : FrameOwner (some o) g g₂ :=
              FrameOwner_push_visit hF₂ hkey₂
            refine ⟨hGI', hDC', FrameOwner_comp hFO₂ hF', ?_⟩
            intro o' ho'
            cases ho'
            have hd₂ : (taskOf g₂ o).dependencies =
                (taskOf g o).dependencies ++ [getTaskKey dir rt.scriptName] :=
              deps_after_push_frame homem hF₂
            have hd' := hdeps' o rfl
            rw [hd', hd₂]
            rw [List.filter_cons]
            simp only [hw, hscript, ite_true, List.map_cons]
            rw [List.append_assoc]
            rfl
      · rw [if_neg hscript] at hok
        obtain ⟨hGI', hDC', hF', hdeps'⟩ :=
          ihDirs path rt owner rest g g' hok hGI hDC howner
        refine ⟨hGI', hDC', hF', ?_⟩
        intro o ho
        have := hdeps' o ho
        rw [this, List.filter_cons]
        simp only [hw]
        simp only [hscript]
        simp

theorem depSpec_succ (cfg : Config) (fuel : Nat)
    (ihV : VisitSpec cfg fuel) (ihDep : DepSpec cfg fuel) :
    DepSpec cfg (Nat.succ fuel) := by
  intro path rt ownerKey names g g' hok hGI hDC howner
  cases names with
  | nil =>
    rw [depLoop] at hok
    cases hok
    exact ⟨hGI, hDC, FrameAll_to_FrameOwner _ (FrameAll_refl _)⟩
  | cons workspaceName rest =>
    rw [depLoop] at hok
    rcases hw : cfg.project.getWorkspaceByName workspaceName with _ | dependency
    · rw [hw] at hok
      cases hok
    · rw [hw] at hok
      simp only at hok
      by_cases hscript : scriptTruthy dependency rt.scriptName = true
      · rw [if_pos hscript] at hok
        rcases hv : visit cfg fuel path rt dependency
            (pushDep g ownerKey (getTaskKey dependency.dir rt.scriptName)) with e | g₂
        · rw [hv] at hok
          cases hok
        · rw [hv] at hok
          have hok₂ : depLoop cfg fuel path rt ownerKey rest g₂ = Except.ok g' := hok
          have homem : ownerKey ∈ mapKeys g := hGI.2.2.2.2.2.1 ownerKey howner
          have hGI₁ : GraphInv path (pushDep g ownerKey (getTaskKey dependency.dir rt.scriptName)) :=
            GraphInv_pushDep hGI howner
          have hDC₁ : DepsClosedExc (pushDep g ownerKey (getTaskKey dependency.dir rt.scriptName))
              [getTaskKey dependency.dir rt.scriptName] :=
            DepsClosedExc_weaken (DepsClosedExc_pushDep hDC)
              (by intro x hx; rcases List.mem_cons.1 hx with h1 | h1
                  · exact h1 ▸ List.mem_singleton_self _
                  · cases h1)
          obtain ⟨hGI₂, hDC₂, hF₂, hkey₂⟩ :=
            ihV path rt dependency _ g₂ hv hGI₁ hDC₁
          obtain ⟨hGI', hDC', hF'⟩ :=
            ihDep path rt ownerKey rest g₂ g' hok₂ hGI₂ hDC₂ howner
          exact ⟨hGI', hDC', FrameOwner_comp (FrameOwner_push_visit hF₂ hkey₂) hF'⟩
      · rw [if_neg hscript] at hok
        exact ihDep path rt ownerKey rest g g' hok hGI hDC howner

theorem runsSpec_succ (cfg : Config) (fuel : Nat)
    (ihE : EnqSpec cfg fuel) (ihR : RunsSpec cfg fuel) :
    RunsSpec cfg (Nat.succ fuel) := by
  intro path rt ws ownerKey entries g g' hok hGI hDC howner
  cases entries with
  | nil =>
    rw [runsAfterLoop] at hok
    cases hok
    exact ⟨hGI, hDC, FrameAll_to_FrameOwner _ (FrameAll_refl _)⟩
  | cons entry rest =>
    obtain ⟨upstreamScriptName, upstreamScriptConfig⟩ := entry
    rw [runsAfterLoop] at hok
    rcases hfp :
        (if upstreamScriptConfig.scope = "self-and-dependencies" then
          match localDependencyDirs cfg ws with
          | Except.ok dirs => Except.ok (ws.dir :: dirs)
          | Except.error e => Except.error e
        else if upstreamScriptConfig.scope = "self-only" then Except.ok [ws.dir]
        else Except.ok ([] : List String)) with e | filterPaths
    · rw [hfp] at hok
      cases hok
    · rw [hfp] at hok
      simp only at hok
      rcases he : enqueueTask cfg fuel path
          { scriptName := upstreamScriptName
          , extraArgs := []
          , force := rt.force
          , filterPaths := filterPaths } (some ownerKey) g with e | g₂
      · rw [he] at hok
        cases hok
      · rw [he] at hok
        have hok₂ : runsAfterLoop cfg fuel path rt ws ownerKey rest g₂ = Except.ok g' := hok
        obtain ⟨hGI₂, hDC₂, hF₂, _⟩ :=
          ihE path _ (some ownerKey) g g₂ he hGI hDC
            (by intro o ho; cases ho; exact howner)
        obtain ⟨hGI', hDC', hF'⟩ :=
          ihR path rt ws ownerKey rest g₂ g' hok₂ hGI₂ hDC₂ howner
        exact ⟨hGI', hDC', FrameOwner_comp hF₂ hF'⟩

theorem enqSpec_succ (cfg : Config) (fuel : Nat)
    (ihV : VisitSpec cfg fuel) (ihDirs : DirsSpec cfg fuel) :
    EnqSpec cfg (Nat.succ fuel) := by
  intro path rt owner g g' hok hGI hDC howner
  rw [enqueueTask] at hok
  by_cases htl : cfg.isTopLevelScript rt.scriptName = true
  · rw [if_pos htl] at hok
    have hres : resolvedTargetDirs cfg rt = [cfg.project.root.dir] := by
      rw [resolvedTargetDirs, if_pos htl]
    cases owner with
    | none =>
      have hok' : visit cfg fuel path rt cfg.project.root g = Except.ok g' := hok
      obtain ⟨hGI', hDC', hF', hkey'⟩ :=
        ihV path rt cfg.project.root g g' hok' hGI
          (DepsClosedExc_weaken hDC (by intro x hx; cases hx))
      refine ⟨hGI', hDC', FrameAll_to_FrameOwner none hF', ?_⟩
      intro o ho
      cases ho
    | some o =>
      have ho : o ∈ path := howner o rfl
      have homem : o ∈ mapKeys g := hGI.2.2.2.2.2.1 o ho
      have hGI₁ : GraphInv path (pushDep g o (getTaskKey cfg.project.root.dir rt.scriptName)) :=
        GraphInv_pushDep hGI ho
      have hDC₁ : DepsClosedExc (pushDep g o (getTaskKey cfg.project.root.dir rt.scriptName))
          [getTaskKey cfg.project.root.dir rt.scriptName] :=
        DepsClosedExc_weaken (DepsClosedExc_pushDep hDC)
          (by intro x hx; rcases List.mem_cons.1 hx with h1 | h1
              · exact h1 ▸ List.mem_singleton_self _
              · cases h1)
      obtain ⟨hGI', hDC', hF', hkey'⟩ :=
        ihV path rt cfg.project.root _ g' hok hGI₁ hDC₁
      refine ⟨hGI', hDC', FrameOwner_push_visit hF' hkey', ?_⟩
      intro o' ho'
      cases ho'
      rw [deps_after_push_frame homem hF', hres]
      rfl
  · rw [if_neg htl] at hok
    obtain ⟨hGI', hDC', hF', hdeps'⟩ :=
      ihDirs path rt owner
        (filterPackageDirs cfg.project.root.dir cfg.project rt.filterPaths cfg.mm)
        g g' hok hGI hDC howner
    refine ⟨hGI', hDC', hF', ?_⟩
    intro o ho
    rw [hdeps' o ho, resolvedTargetDirs, if_neg htl]

/-- The node record `visit` creates, as a named abbreviation for use in
proofs (definitionally equal to the literal in `visit`). -/
def mkNode (cfg : Config) (rt : RequestedTask) (ws : Workspace) : ScheduledTask :=
  { key := getTaskKey ws.dir rt.scriptName
  , taskConfig := cfg.getTaskConfig ws.dir rt.scriptName
  , scriptName := rt.scriptName
  , extraArgs := rt.extraArgs
  , force := rt.force
  , status := "pending"
  , outputFiles := []
  , dependencies := []
  , inputManifestCacheKey := none
  , workspace := ws }

theorem visitSpec_succ (cfg : Config) (fuel : Nat)
    (ihR : RunsSpec cfg fuel) (ihDep : DepSpec cfg fuel) :
    VisitSpec cfg (Nat.succ fuel) := by
  intro path rt ws g g' hok hGI hDC
  rw [visit] at hok
  by_cases hsome : (findTask g (getTaskKey ws.dir rt.scriptName)).isSome = true
  · rw [if_pos hsome] at hok
    have hkeymem : getTaskKey ws.dir rt.scriptName ∈ mapKeys g :=
      mem_mapKeys_iff_isSome.2 hsome
    by_cases hmem : getTaskKey ws.dir rt.scriptName ∈ path
    · rw [if_pos hmem] at hok
      cases hok
    · rw [if_neg hmem] at hok
      cases hok
      refine ⟨hGI, DepsClosedExc_mem hDC hkeymem, FrameAll_refl _, ?_⟩
      rcases hGI.2.2.2.1 _ hkeymem with h1 | h1
      · exact h1
      · exact absurd h1 hmem
  · rw [if_neg hsome] at hok
    simp only at hok
    have hfresh : findTask g (getTaskKey ws.dir rt.scriptName) = none :=
      Option.not_isSome_iff_eq_none.1 hsome
    rcases hr : runsAfterLoop cfg fuel (path ++ [getTaskKey ws.dir rt.scriptName]) rt ws
        (getTaskKey ws.dir rt.scriptName)
        (cfg.getTaskConfig ws.dir rt.scriptName).runsAfterEntries
        (insertTask g (getTaskKey ws.dir rt.scriptName)
          { key := getTaskKey ws.dir rt.scriptName
          , taskConfig := cfg.getTaskConfig ws.dir rt.scriptName
          , scriptName := rt.scriptName
          , extraArgs := rt.extraArgs
          , force := rt.force
          , status := "pending"
          , outputFiles := []
          , dependencies := []
          , inputManifestCacheKey := none
          , workspace := ws }) with e | g₂
    · rw [hr] at hok
      cases hok
    · rw [hr] at hok
      simp only at hok
      have hGI₁ : GraphInv (path ++ [getTaskKey ws.dir rt.scriptName])
          (insertTask g (getTaskKey ws.dir rt.scriptName) (mkNode cfg rt ws)) :=
        GraphInv_insert hGI hfresh
      have hDC₁ : DepsClosedExc
          (insertTask g (getTaskKey ws.dir rt.scriptName) (mkNode cfg rt ws)) [] :=
        DepsClosedExc_insert hDC rfl
      have hown : getTaskKey ws.dir rt.scriptName ∈ path ++ [getTaskKey ws.dir rt.scriptName] :=
        List.mem_append_right _ (List.mem_singleton_self _)
      obtain ⟨hGI₂, hDC₂, hF₂⟩ :=
        ihR _ rt ws _ _ _ g₂ hr hGI₁ hDC₁ hown
      rcases hd :
          (if (cfg.getTaskConfig ws.dir rt.scriptName).execution = "dependent" then
            depLoop cfg fuel (path ++ [getTaskKey ws.dir rt.scriptName]) rt
              (getTaskKey ws.dir rt.scriptName) ws.localDependencyWorkspaceNames g₂
          else Except.ok g₂) with e | g₃
      · rw [hd] at hok
        cases hok
      · rw [hd] at hok
        cases hok
        have hstep₃ : GraphInv (path ++ [getTaskKey ws.dir rt.scriptName]) g₃ ∧
            DepsClosedExc g₃ [] ∧ FrameOwner (some (getTaskKey ws.dir rt.scriptName)) g₂ g₃ := by
          by_cases hdep : (cfg.getTaskConfig ws.dir rt.scriptName).execution = "dependent"
          · rw [if_pos hdep] at hd
            exact ihDep _ rt _ _ g₂ g₃ hd hGI₂ hDC₂ hown
          · rw [if_neg hdep] at hd
            cases hd
            exact ⟨hGI₂, hDC₂, FrameAll_to_FrameOwner _ (FrameAll_refl _)⟩
        obtain ⟨hGI₃, hDC₃, hF₃⟩ := hstep₃
        have hkeyfreshS : getTaskKey ws.dir rt.scriptName ∉ g₃.sortedTaskKeys :=
          hGI₃.2.2.2.2.2.2.1 _ hown
        have hkeyM₃ : getTaskKey ws.dir rt.scriptName ∈ mapKeys g₃ :=
          hGI₃.2.2.2.2.2.1 _ hown
        have hdepsub : ∀ d ∈ (taskOf g₃ (getTaskKey ws.dir rt.scriptName)).dependencies,
            d ∈ g₃.sortedTaskKeys := by
          have hnode₁ : findTask
              (insertTask g (getTaskKey ws.dir rt.scriptName) (mkNode cfg rt ws))
              (getTaskKey ws.dir rt.scriptName) = some (mkNode cfg rt ws) :=
            findTask_insertTask_self _ hfresh
          obtain ⟨nd₂, hnd₂, hin₂⟩ := hF₂.2.2.2 _ rfl
          obtain ⟨nd₃, hnd₃, hin₃⟩ := hF₃.2.2.2 _ rfl
          have h₂ := hnd₂ _ hnode₁
          have h₃ := hnd₃ _ h₂
          intro d hd'
          rw [taskOf_eq_of_findTask h₃] at hd'
          simp only [List.nil_append] at hd'
          rcases List.mem_append.1 hd' with h4 | h4
          · obtain ⟨tl₃, hs₃⟩ := hF₃.2.1
            rw [hs₃]
            exact List.mem_append_left _ (hin₂ d h4)
          · exact hin₃ d h4
        refine ⟨GraphInv_pushSorted hGI₃ hdepsub, DepsClosedExc_pushSorted hDC₃, ?_, ?_⟩
        · have hkeyfresh : getTaskKey ws.dir rt.scriptName ∉ mapKeys g :=
            assocFind_eq_none.1 hfresh
          have hFa : FrameAll g g₃ := by
            refine ⟨?_, ?_, ?_⟩
            · intro k hk
              have hk₁ : k ∈ mapKeys
                  (insertTask g (getTaskKey ws.dir rt.scriptName) (mkNode cfg rt ws)) := by
                rw [mapKeys_insertTask]
                exact List.mem_append_left _ hk
              exact hF₃.1 k (hF₂.1 k hk₁)
            · obtain ⟨tl₂, hs₂⟩ := hF₂.2.1
              obtain ⟨tl₃, hs₃⟩ := hF₃.2.1
              have hs₂' : g₂.sortedTaskKeys = g.sortedTaskKeys ++ tl₂ := hs₂
              exact ⟨tl₂ ++ tl₃, by rw [hs₃, hs₂', List.append_assoc]⟩
            · intro k hk
              have hne : some k ≠ some (getTaskKey ws.dir rt.scriptName) := by
                intro he
                injection he with he'
                exact hkeyfresh (he' ▸ hk)
              have hk₁ : k ∈ mapKeys
                  (insertTask g (getTaskKey ws.dir rt.scriptName) (mkNode cfg rt ws)) := by
                rw [mapKeys_insertTask]
                exact List.mem_append_left _ hk
              rw [hF₃.2.2.1 k (hF₂.1 k hk₁) hne, hF₂.2.2.1 k hk₁ hne,
                findTask_insertTask_of_mem _ hk]
          exact FrameAll_comp hFa (FrameAll_pushSorted g₃ _)
        · rw [sorted_pushSorted]
          exact List.mem_append_right _ (List.mem_singleton_self _)

theorem buildSpec (cfg : Config) (hcfg : ConfigWF cfg) (fuel : Nat) :
    VisitSpec cfg fuel ∧ RunsSpec cfg fuel ∧ EnqSpec cfg fuel ∧ DirsSpec cfg fuel ∧
      DepSpec cfg fuel := by
  induction fuel with
  | zero =>
    exact ⟨visitSpec_zero cfg, runsSpec_zero cfg, enqSpec_zero cfg, dirsSpec_zero cfg,
      depSpec_zero cfg⟩
  | succ n ih =>
    obtain ⟨hV, hR, hE, hDi, hDe⟩ := ih
    exact ⟨visitSpec_succ cfg n hR hDe, runsSpec_succ cfg n hE hR,
      enqSpec_succ cfg n hV hDi, dirsSpec_succ cfg hcfg n hV hDi, depSpec_succ cfg n hV hDe⟩

theorem requestedLoop_inv (cfg : Config) (hcfg : ConfigWF cfg) (fuel : Nat) :
    ∀ rts (g g' : TaskGraph),
      requestedLoop cfg fuel rts g = Except.ok g' → GraphInv [] g → DepsClosedExc g [] →
      GraphInv [] g' ∧ DepsClosedExc g' [] := by
  intro rts
  induction rts with
  | nil =>
    intro g g' hok hGI hDC
    rw [requestedLoop] at hok
    cases hok
    exact ⟨hGI, hDC⟩
  | cons rt rest ih =>
    intro g g' hok hGI hDC
    rw [requestedLoop] at hok
    rcases he : enqueueTask cfg fuel [] rt none g with e | g₂
    · rw [he] at hok
      cases hok
    · rw [he] at hok
      obtain ⟨hGI₂, hDC₂, _, _⟩ :=
        (buildSpec cfg hcfg fuel).2.2.1 [] rt none g g₂ he hGI hDC
          (by intro o ho; cases ho)
      exact ih g₂ g' hok hGI₂ hDC₂

/-- Well-formedness of a graph the scheduler operates on: unique keys,
the map and the sorted key list agree, and no dangling dependency keys.
Graph construction establishes all of it. -/
def WFGraph (g : TaskGraph) : Prop :=
  (mapKeys g).Nodup ∧ g.sortedTaskKeys.Nodup ∧
  (∀ k ∈ mapKeys g, k ∈ g.sortedTaskKeys) ∧
  (∀ k ∈ g.sortedTaskKeys, k ∈ mapKeys g) ∧
  (∀ q ∈ g.allTasks, ∀ d ∈ q.2.dependencies, d ∈ mapKeys g)

/-- Every node is in the `pending` status (the state at construction). -/
def AllPending (g : TaskGraph) : Prop :=
  ∀ q ∈ g.allTasks, q.2.status = "pending"

theorem mapKeys_setStatus (g : TaskGraph) (k s : String) :
    mapKeys (setStatus g k s) = mapKeys g := by
  simp [mapKeys, setStatus, map_fst_updateEntry]

theorem sorted_setStatus (g : TaskGraph) (k s : String) :
    (setStatus g k s).sortedTaskKeys = g.sortedTaskKeys := rfl

theorem taskOf_setStatus_other (g : TaskGraph) {k k' : String} (s : String) (h : k' ≠ k) :
    taskOf (setStatus g k s) k' = taskOf g k' := by
  rw [taskOf, taskOf, findTask, setStatus]
  rw [show assocFind (updateEntry (fun t => { t with status := s }) g.allTasks k) k' =
    assocFind g.allTasks k' from assocFind_updateEntry_other _ _ h]
  rfl

theorem taskOf_setStatus_self {g : TaskGraph} {k : String} (s : String) (h : k ∈ mapKeys g) :
    taskOf (setStatus g k s) k = { taskOf g k with status := s } := by
  rcases hf : findTask g k with _ | t
  · exact absurd (mem_mapKeys_iff_isSome.1 h) (by simp [hf])
  · have : findTask (setStatus g k s) k = some { t with status := s } := by
      rw [findTask, setStatus]
      rw [show assocFind (updateEntry (fun t => { t with status := s }) g.allTasks k) k =
        (assocFind g.allTasks k).map (fun t => { t with status := s }) from
        assocFind_updateEntry_same _ _ _]
      rw [show assocFind g.allTasks k = some t from hf]
      rfl
    rw [taskOf_eq_of_findTask this, taskOf_eq_of_findTask hf]

theorem taskOf_setStatus_shape (g : TaskGraph) (k s k' : String) :
    ∃ s', taskOf (setStatus g k s) k' = { taskOf g k' with status := s' } := by
  by_cases he : k' = k
  · subst he
    by_cases hm : k' ∈ mapKeys g
    · exact ⟨s, taskOf_setStatus_self s hm⟩
    · refine ⟨(taskOf g k').status, ?_⟩
      have hnone : findTask g k' = none := by
        rcases hf : findTask g k' with _ | t
        · rfl
        · exact absurd (mem_mapKeys_iff_isSome.2 (by simp [hf])) hm
      have hnone' : findTask (setStatus g k' s) k' = none := by
        rw [findTask, setStatus]
        rw [show assocFind (updateEntry (fun t => { t with status := s }) g.allTasks k') k' =
          (assocFind g.allTasks k').map (fun t => { t with status := s }) from
          assocFind_updateEntry_same _ _ _]
        rw [show assocFind g.allTasks k' = none from hnone]
        rfl
      rw [taskOf, taskOf, hnone, hnone']
  · exact ⟨(taskOf g k').status, by rw [taskOf_setStatus_other g s he]⟩

theorem WFGraph_setStatus {g : TaskGraph} (hWF : WFGraph g) (k s : String) :
    WFGraph (setStatus g k s) := by
  obtain ⟨h1, h2, h3, h4, h5⟩ := hWF
  have hkeys := mapKeys_setStatus g k s
  refine ⟨hkeys ▸ h1, h2, ?_, ?_, ?_⟩
  · intro k' hk'; exact h3 k' (hkeys ▸ hk')
  · intro k' hk'; rw [hkeys]; exact h4 k' hk'
  · intro q hq d hd
    rw [hkeys]
    rcases updateEntry_mem_cases hq with hc | hc
    · exact h5 q hc d hd
    · rcases hc with ⟨v, hv1, hv2⟩
      have : q.2 = { v with status := s } := by
        have := congrArg Prod.snd hv2
        simpa using this
      rw [this] at hd
      exact h5 (q.1, v) hv1 d hd

theorem deps_closed_taskOf {g : TaskGraph} (hWF : WFGraph g) {k : String}
    (hk : k ∈ mapKeys g) : ∀ d ∈ (taskOf g k).dependencies, d ∈ mapKeys g := by
  intro d hd
  rcases hf : findTask g k with _ | t
  · exact absurd (mem_mapKeys_iff_isSome.1 hk) (by simp [hf])
  · rw [taskOf_eq_of_findTask hf] at hd
    exact hWF.2.2.2.2 (k, t) (assocFind_mem hf) d hd

theorem startTasks_mapKeys : ∀ (ks : List String) (g : TaskGraph),
    mapKeys (startTasks g ks) = mapKeys g := by
  intro ks
  induction ks with
  | nil => intro g; rfl
  | cons a rest ih =>
    intro g
    rw [startTasks, ih, mapKeys_setStatus]

theorem startTasks_sorted : ∀ (ks : List String) (g : TaskGraph),
    (startTasks g ks).sortedTaskKeys = g.sortedTaskKeys := by
  intro ks
  induction ks with
  | nil => intro g; rfl
  | cons a rest ih =>
    intro g
    rw [startTasks, ih, sorted_setStatus]

theorem taskOf_startTasks_not_mem : ∀ (ks : List String) (g : TaskGraph) (k : String),
    k ∉ ks → taskOf (startTasks g ks) k = taskOf g k := by
  intro ks
  induction ks with
  | nil => intro g k _; rfl
  | cons a rest ih =>
    intro g k hk
    have hka : k ≠ a := fun he => hk (he ▸ List.mem_cons_self _ _)
    have hkr : k ∉ rest := fun hr => hk (List.mem_cons_of_mem _ hr)
    rw [startTasks, ih _ _ hkr, taskOf_setStatus_other g _ hka]

theorem taskOf_startTasks_mem : ∀ (ks : List String) (g : TaskGraph) (k : String),
    k ∈ ks → k ∈ mapKeys g → (taskOf (startTasks g ks) k).status = "running" := by
  intro ks
  induction ks with
  | nil => intro g k hk; cases hk
  | cons a rest ih =>
    intro g k hk hmem
    rw [startTasks]
    by_cases hkr : k ∈ rest
    · exact ih _ k hkr (by rw [mapKeys_setStatus]; exact hmem)
    · have hka : k = a := by
        rcases List.mem_cons.1 hk with h | h
        · exact h
        · exact absurd h hkr
      subst hka
      rw [taskOf_startTasks_not_mem rest _ k hkr, taskOf_setStatus_self _ hmem]

theorem taskOf_startTasks_shape : ∀ (ks : List String) (g : TaskGraph) (k : String),
    ∃ s, taskOf (startTasks g ks) k = { taskOf g k with status := s } := by
  intro ks
  induction ks with
  | nil =>
    intro g k
    exact ⟨(taskOf g k).status, rfl⟩
  | cons a rest ih =>
    intro g k
    rw [startTasks]
    obtain ⟨s₁, hs₁⟩ := ih (setStatus g a "running") k
    obtain ⟨s₂, hs₂⟩ := taskOf_setStatus_shape g a "running" k
    exact ⟨s₁, by rw [hs₁, hs₂]⟩

theorem WFGraph_startTasks : ∀ (ks : List String) {g : TaskGraph},
    WFGraph g → WFGraph (startTasks g ks) := by
  intro ks
  induction ks with
  | nil => intro g h; exact h
  | cons a rest ih =>
    intro g h
    rw [startTasks]
    exact ih (WFGraph_setStatus h a "running")

theorem isTaskReady_iff {g : TaskGraph} {k : String} :
    isTaskReady g k = true ↔ (taskOf g k).status = "pending" ∧
      ∀ d ∈ (taskOf g k).dependencies, strStartsWith (taskOf g d).status "success" = true := by
  unfold isTaskReady
  rw [Bool.and_eq_true, decide_eq_true_eq, List.all_eq_true]

theorem dropUnparallelizable_sublist (g : TaskGraph) :
    ∀ (l seen : List String), (dropUnparallelizable g seen l).Sublist l := by
  intro l
  induction l with
  | nil => intro seen; rw [dropUnparallelizable]
  | cons k rest ih =>
    intro seen
    simp only [dropUnparallelizable]
    by_cases hp : (taskOf g k).taskConfig.parallel = true
    · rw [if_pos hp]
      exact List.Sublist.cons₂ k (ih seen)
    · rw [if_neg hp]
      by_cases hs : (taskOf g k).scriptName ∈ seen
      · rw [if_pos hs]
        exact List.Sublist.cons k (ih seen)
      · rw [if_neg hs]
        exact List.Sublist.cons₂ k (ih _)

theorem mem_allReadyTaskKeys {g : TaskGraph} {k : String} (h : k ∈ allReadyTaskKeys g) :
    k ∈ g.sortedTaskKeys ∧ isTaskReady g k = true := by
  rw [allReadyTaskKeys] at h
  have h1 := mem_sortKeys.1 h
  have h2 := (dropUnparallelizable_sublist g _ _).subset h1
  exact ⟨(List.mem_filter.1 h2).1, (List.mem_filter.1 h2).2⟩

theorem nodup_allReadyTaskKeys {g : TaskGraph} (hWF : WFGraph g) :
    (allReadyTaskKeys g).Nodup := by
  rw [allReadyTaskKeys]
  exact nodup_sortKeys
    ((dropUnparallelizable_sublist g _ _).nodup ((List.filter_sublist _).nodup hWF.2.1))

/-- The running-task count the scheduler bounds. -/
def runningCount (g : TaskGraph) : Nat :=
  (allRunningTaskKeys g).length

theorem runningCount_eq_countP (g : TaskGraph) :
    runningCount g =
      List.countP (fun k => decide ((taskOf g k).status = "running")) g.sortedTaskKeys := by
  rw [runningCount, allRunningTaskKeys, List.countP_eq_length_filter]

theorem countP_flip_true {l : List String} (hl : l.Nodup) {p q : String → Bool} {k : String}
    (hk : k ∈ l) (hpk : p k = false) (hqk : q k = true)
    (hother : ∀ x ∈ l, x ≠ k → q x = p x) :
    List.countP q l = List.countP p l + 1 := by
  induction l with
  | nil => cases hk
  | cons a rest ih =>
    have hrest : ∀ x ∈ rest, x ≠ k → q x = p x :=
      fun x hx => hother x (List.mem_cons_of_mem _ hx)
    by_cases hak : a = k
    · subst hak
      have hnot : a ∉ rest := hl.not_mem
      have heq : List.countP q rest = List.countP p rest := by
        apply List.countP_congr
        intro x hx
        have : x ≠ a := fun he => hnot (he ▸ hx)
        rw [hrest x hx this]
      rw [List.countP_cons, List.countP_cons, hpk, hqk, heq]
      simp
    · have hkr : k ∈ rest := by
        rcases List.mem_cons.1 hk with h | h
        · exact absurd h.symm hak
        · exact h
      have hqp : q a = p a := hother a (List.mem_cons_self _ _) hak
      rw [List.countP_cons, List.countP_cons, hqp,
        ih (List.Nodup.of_cons hl) hkr hrest]
      omega

theorem runningCount_setStatus_running {g : TaskGraph} (hWF : WFGraph g) {k : String}
    (hk : k ∈ g.sortedTaskKeys) (hpend : (taskOf g k).status = "pending") :
    runningCount (setStatus g k "running") = runningCount g + 1 := by
  have hmem : k ∈ mapKeys g := hWF.2.2.2.1 k hk
  rw [runningCount_eq_countP, runningCount_eq_countP, sorted_setStatus]
  apply countP_flip_true hWF.2.1 hk
  · simp [hpend]
  · simp [taskOf_setStatus_self _ hmem]
  · intro x hx hne
    simp [taskOf_setStatus_other g _ hne]

theorem runningCount_startTasks : ∀ (ks : List String) (g : TaskGraph), WFGraph g →
    ks.Nodup → (∀ k ∈ ks, k ∈ g.sortedTaskKeys ∧ (taskOf g k).status = "pending") →
    runningCount (startTasks g ks) = runningCount g + ks.length := by
  intro ks
  induction ks with
  | nil => intro g _ _ _; rfl
  | cons a rest ih =>
    intro g hWF hnd hall
    rw [startTasks]
    have ha := hall a (List.mem_cons_self _ _)
    have hrest : ∀ k ∈ rest, k ∈ (setStatus g a "running").sortedTaskKeys ∧
        (taskOf (setStatus g a "running") k).status = "pending" := by
      intro k hk
      have hka : k ≠ a := fun he => hnd.not_mem (he ▸ hk)
      rw [sorted_setStatus, taskOf_setStatus_other g _ hka]
      exact hall k (List.mem_cons_of_mem _ hk)
    rw [ih _ (WFGraph_setStatus hWF a "running") (List.Nodup.of_cons hnd) hrest,
      runningCount_setStatus_running hWF ha.1 ha.2, List.length_cons]
    omega

/-- The list of keys `tick` transitions to running (empty in the
resolve/wait branches). -/
def tickStarted (maxConcurrent : Nat) (g : TaskGraph) : List String :=
  if (allRunningTaskKeys g).length ≥ maxConcurrent then []
  else if (allReadyTaskKeys g).isEmpty then []
  else (allReadyTaskKeys g).take
    (min (maxConcurrent - (allRunningTaskKeys g).length) (allReadyTaskKeys g).length)

theorem tick_eq_startTasks (maxConcurrent : Nat) (g : TaskGraph) :
    tick maxConcurrent g = startTasks g (tickStarted maxConcurrent g) := by
  rw [tick, tickStarted]
  by_cases h1 : (allRunningTaskKeys g).length ≥ maxConcurrent
  · rw [if_pos h1, if_pos h1]
    rfl
  · rw [if_neg h1, if_neg h1]
    by_cases h2 : (allReadyTaskKeys g).isEmpty = true
    · rw [if_pos h2, if_pos h2]
      rfl
    · rw [if_neg h2, if_neg h2]

theorem tickStarted_subset_ready {maxConcurrent : Nat} {g : TaskGraph} {k : String}
    (h : k ∈ tickStarted maxConcurrent g) : k ∈ allReadyTaskKeys g := by
  rw [tickStarted] at h
  by_cases h1 : (allRunningTaskKeys g).length ≥ maxConcurrent
  · rw [if_pos h1] at h
    cases h
  · rw [if_neg h1] at h
    by_cases h2 : (allReadyTaskKeys g).isEmpty = true
    · rw [if_pos h2] at h
      cases h
    · rw [if_neg h2] at h
      exact List.mem_of_mem_take h

theorem tick_status_unchanged {maxConcurrent : Nat} {g : TaskGraph} {k : String}
    (h : k ∉ tickStarted maxConcurrent g) :
    taskOf (tick maxConcurrent g) k = taskOf g k := by
  rw [tick_eq_startTasks]
  exact taskOf_startTasks_not_mem _ g k h

theorem tick_started_of_status {maxConcurrent : Nat} {g : TaskGraph} {k : String}
    (hpend : (taskOf g k).status = "pending")
    (hrun : (taskOf (tick maxConcurrent g) k).status = "running") :
    k ∈ tickStarted maxConcurrent g := by
  by_contra hmem
  rw [tick_status_unchanged hmem, hpend] at hrun
  exact (by decide : ("pending" : String) ≠ "running") hrun

/-- Once a node is not `pending`, all its dependencies carry a
`success:*` status — the heart of the scheduler's safety argument. -/
def DepsSucceeded (g : TaskGraph) : Prop :=
  ∀ k ∈ g.sortedTaskKeys, (taskOf g k).status ≠ "pending" →
    ∀ d ∈ (taskOf g k).dependencies, strStartsWith (taskOf g d).status "success" = true

/-- The scheduler's inductive invariant. -/
def SchedInv (maxConcurrent : Nat) (g : TaskGraph) : Prop :=
  WFGraph g ∧ DepsSucceeded g ∧ runningCount g ≤ maxConcurrent

theorem runningCount_tick_le {maxConcurrent : Nat} {g : TaskGraph} (hWF : WFGraph g)
    (hc : runningCount g ≤ maxConcurrent) :
    runningCount (tick maxConcurrent g) ≤ maxConcurrent := by
  rw [tick_eq_startTasks, tickStarted]
  by_cases h1 : (allRunningTaskKeys g).length ≥ maxConcurrent
  · rw [if_pos h1]
    exact hc
  · rw [if_neg h1]
    by_cases h2 : (allReadyTaskKeys g).isEmpty = true
    · rw [if_pos h2]
      exact hc
    · rw [if_neg h2]
      have htaken : ∀ k ∈ (allReadyTaskKeys g).take
          (min (maxConcurrent - (allRunningTaskKeys g).length) (allReadyTaskKeys g).length),
          k ∈ g.sortedTaskKeys ∧ (taskOf g k).status = "pending" := by
        intro k hk
        have hr := mem_allReadyTaskKeys (List.mem_of_mem_take hk)
        exact ⟨hr.1, (isTaskReady_iff.1 hr.2).1⟩
      have hnd : ((allReadyTaskKeys g).take
          (min (maxConcurrent - (allRunningTaskKeys g).length)
            (allReadyTaskKeys g).length)).Nodup :=
        (List.take_sublist _ _).nodup (nodup_allReadyTaskKeys hWF)
      rw [runningCount_startTasks _ _ hWF hnd htaken]
      rw [List.length_take]
      have hrun : runningCount g = (allRunningTaskKeys g).length := rfl
      omega

theorem depsSucceeded_tick {maxConcurrent : Nat} {g : TaskGraph}
    (hDS : DepsSucceeded g) : DepsSucceeded (tick maxConcurrent g) := by
  rw [tick_eq_startTasks]
  intro k hk hstat d hd
  rw [startTasks_sorted] at hk
  obtain ⟨sk, hsk⟩ := taskOf_startTasks_shape (tickStarted maxConcurrent g) g k
  rw [hsk] at hd
  simp only at hd
  have hdnot : ∀ {x : String}, strStartsWith (taskOf g x).status "success" = true →
      x ∉ tickStarted maxConcurrent g := by
    intro x hs hxt
    have hxready := mem_allReadyTaskKeys (tickStarted_subset_ready hxt)
    have hxpend := (isTaskReady_iff.1 hxready.2).1
    rw [hxpend] at hs
    exact (by decide : strStartsWith "pending" "success" ≠ true) hs
  by_cases hkt : k ∈ tickStarted maxConcurrent g
  · have hready := mem_allReadyTaskKeys (tickStarted_subset_ready hkt)
    have hsucc := (isTaskReady_iff.1 hready.2).2 d hd
    rw [taskOf_startTasks_not_mem _ _ _ (hdnot hsucc)]
    exact hsucc
  · have hstat' : (taskOf g k).status ≠ "pending" := by
      rw [taskOf_startTasks_not_mem _ _ _ hkt] at hstat
      exact hstat
    have hsucc := hDS k hk hstat' d hd
    rw [taskOf_startTasks_not_mem _ _ _ (hdnot hsucc)]
    exact hsucc

theorem statusForOutcome_ne_running (didRunTask didSucceed : Bool) :
    statusForOutcome didRunTask didSucceed ≠ "running" := by
  cases didRunTask <;> cases didSucceed <;> decide

theorem depsSucceeded_complete {g : TaskGraph} {key : String} {didRunTask didSucceed : Bool}
    (hDS : DepsSucceeded g) (hrun : (taskOf g key).status = "running") :
    DepsSucceeded (completeTask g key didRunTask didSucceed) := by
  intro k hk hstat d hd
  rw [completeTask] at hstat hd hk ⊢
  rw [sorted_setStatus] at hk
  have hrunning_not_success : strStartsWith (taskOf g key).status "success" ≠ true := by
    rw [hrun]
    decide
  by_cases hkk : k = key
  · subst hkk
    have hstat₀ : (taskOf g k).status ≠ "pending" := by
      rw [hrun]
      decide
    obtain ⟨s', hs'⟩ := taskOf_setStatus_shape g k (statusForOutcome didRunTask didSucceed) k
    rw [hs'] at hd
    simp only at hd
    have hsucc := hDS k hk hstat₀ d hd
    have hdk : d ≠ k := by
      intro he
      rw [he] at hsucc
      exact hrunning_not_success hsucc
    rw [taskOf_setStatus_other g _ hdk]
    exact hsucc
  · rw [taskOf_setStatus_other g _ hkk] at hstat hd
    have hsucc := hDS k hk hstat d hd
    have hdk : d ≠ key := by
      intro he
      rw [he] at hsucc
      exact hrunning_not_success hsucc
    rw [taskOf_setStatus_other g _ hdk]
    exact hsucc

theorem updateEntry_not_mem {α : Type} (f : α → α) :
    ∀ (l : List (String × α)) (key : String), key ∉ l.map Prod.fst → updateEntry f l key = l := by
  intro l
  induction l with
  | nil => intro key _; rfl
  | cons q rest ih =>
    intro key hnm
    obtain ⟨kq, vq⟩ := q
    have hkq : kq ≠ key := fun he => hnm (by simp [he])
    rw [updateEntry, if_neg hkq, ih key (fun hmem => hnm (List.mem_cons_of_mem _ hmem))]

theorem setStatus_not_mem {g : TaskGraph} {key : String} (s : String)
    (h : key ∉ mapKeys g) : setStatus g key s = g := by
  rw [setStatus, updateEntry_not_mem _ _ _ h]

theorem runningCount_complete_le {maxConcurrent : Nat} {g : TaskGraph} {key : String}
    {didRunTask didSucceed : Bool} (hc : runningCount g ≤ maxConcurrent) :
    runningCount (completeTask g key didRunTask didSucceed) ≤ maxConcurrent := by
  rw [completeTask]
  calc runningCount (setStatus g key (statusForOutcome didRunTask didSucceed))
      ≤ runningCount g := by
        rw [runningCount_eq_countP, runningCount_eq_countP, sorted_setStatus]
        apply List.countP_mono_left
        intro x hx hpx
        simp only [decide_eq_true_eq] at hpx ⊢
        by_cases hxk : x = key
        · subst hxk
          by_cases hm : x ∈ mapKeys g
          · rw [taskOf_setStatus_self _ hm] at hpx
            simp only at hpx
            exact absurd hpx (statusForOutcome_ne_running _ _)
          · rw [setStatus_not_mem _ hm] at hpx
            exact hpx
        · rw [taskOf_setStatus_other g _ hxk] at hpx
          exact hpx
    _ ≤ maxConcurrent := hc

theorem allPending_taskOf {g : TaskGraph} (hAP : AllPending g) {k : String}
    (hk : k ∈ mapKeys g) : (taskOf g k).status = "pending" := by
  rcases hf : findTask g k with _ | t
  · exact absurd (mem_mapKeys_iff_isSome.1 hk) (by simp [hf])
  · rw [taskOf_eq_of_findTask hf]
    exact hAP (k, t) (assocFind_mem hf)

theorem schedInv_initial {maxConcurrent : Nat} {g : TaskGraph} (hWF : WFGraph g)
    (hAP : AllPending g) : SchedInv maxConcurrent g := by
  refine ⟨hWF, ?_, ?_⟩
  · intro k hk hstat d hd
    exact absurd (allPending_taskOf hAP (hWF.2.2.2.1 k hk)) hstat
  · rw [runningCount_eq_countP]
    have : List.countP (fun k => decide ((taskOf g k).status = "running"))
        g.sortedTaskKeys = 0 := by
      rw [List.countP_eq_zero]
      intro k hk
      simp only [decide_eq_true_eq]
      rw [allPending_taskOf hAP (hWF.2.2.2.1 k hk)]
      decide
    rw [this]
    exact Nat.zero_le _

theorem schedInv_tick {maxConcurrent : Nat} {g : TaskGraph} (h : SchedInv maxConcurrent g) :
    SchedInv maxConcurrent (tick maxConcurrent g) := by
  refine ⟨?_, depsSucceeded_tick h.2.1, runningCount_tick_le h.1 h.2.2⟩
  rw [tick_eq_startTasks]
  exact WFGraph_startTasks _ h.1

theorem schedInv_step {maxConcurrent : Nat} {g g' : TaskGraph} (h : SchedInv maxConcurrent g)
    (hs : SchedStep maxConcurrent g g') : SchedInv maxConcurrent g' := by
  cases hs with
  | complete key didRunTask didSucceed hrun =>
    exact schedInv_tick
      ⟨WFGraph_setStatus h.1 _ _, depsSucceeded_complete h.2.1 hrun,
        runningCount_complete_le h.2.2⟩

theorem schedInv_reachable {maxConcurrent : Nat} {g₀ g : TaskGraph} (hWF : WFGraph g₀)
    (hAP : AllPending g₀) (hreach : Reachable maxConcurrent g₀ g) :
    SchedInv maxConcurrent g := by
  have h₁ : SchedInv maxConcurrent (tick maxConcurrent g₀) :=
    schedInv_tick (schedInv_initial hWF hAP)
  induction hreach with
  | refl => exact h₁
  | tail _ hstep ih => exact schedInv_step ih hstep

theorem dropUnpar_at_most_one (g : TaskGraph) :
    ∀ (l seen : List String),
      (∀ k ∈ dropUnparallelizable g seen l, (taskOf g k).taskConfig.parallel = false →
        (taskOf g k).scriptName ∉ seen) ∧
      (∀ k₁ ∈ dropUnparallelizable g seen l, ∀ k₂ ∈ dropUnparallelizable g seen l,
        (taskOf g k₁).taskConfig.parallel = false →
        (taskOf g k₂).taskConfig.parallel = false →
        (taskOf g k₁).scriptName = (taskOf g k₂).scriptName → k₁ = k₂) := by
  intro l
  induction l with
  | nil =>
    intro seen
    constructor
    · intro k hk
      rw [dropUnparallelizable] at hk
      cases hk
    · intro k₁ hk₁
      rw [dropUnparallelizable] at hk₁
      cases hk₁
  | cons k rest ih =>
    intro seen
    simp only [dropUnparallelizable]
    by_cases hp : (taskOf g k).taskConfig.parallel = true
    · rw [if_pos hp]
      constructor
      · intro x hx hxp
        rcases List.mem_cons.1 hx with h1 | h1
        · rw [h1] at hxp
          rw [hxp] at hp
          cases hp
        · exact (ih seen).1 x h1 hxp
      · intro k₁ hk₁ k₂ hk₂ hp₁ hp₂ hsn
        rcases List.mem_cons.1 hk₁ with h1 | h1
        · rw [h1] at hp₁
          rw [hp₁] at hp
          cases hp
        · rcases List.mem_cons.1 hk₂ with h2 | h2
          · rw [h2] at hp₂
            rw [hp₂] at hp
            cases hp
          · exact (ih seen).2 k₁ h1 k₂ h2 hp₁ hp₂ hsn
    · rw [if_neg hp]
      by_cases hs : (taskOf g k).scriptName ∈ seen
      · rw [if_pos hs]
        exact ih seen
      · rw [if_neg hs]
        constructor
        · intro x hx hxp
          rcases List.mem_cons.1 hx with h1 | h1
          · rw [h1]
            exact hs
          · intro hmem
            exact (ih _).1 x h1 hxp (List.mem_cons_of_mem _ hmem)
        · intro k₁ hk₁ k₂ hk₂ hp₁ hp₂ hsn
          rcases List.mem_cons.1 hk₁ with h1 | h1
          · rcases List.mem_cons.1 hk₂ with h2 | h2
            · rw [h1, h2]
            · exfalso
              have := (ih _).1 k₂ h2 hp₂
              rw [h1] at hsn
              exact this (hsn ▸ List.mem_cons_self _ _)
          · rcases List.mem_cons.1 hk₂ with h2 | h2
            · exfalso
              have := (ih _).1 k₁ h1 hp₁
              rw [h2] at hsn
              exact this (hsn ▸ List.mem_cons_self _ _)
            · exact (ih _).2 k₁ h1 k₂ h2 hp₁ hp₂ hsn

theorem allReady_at_most_one_nonparallel {g : TaskGraph} {k₁ k₂ : String}
    (h₁ : k₁ ∈ allReadyTaskKeys g) (h₂ : k₂ ∈ allReadyTaskKeys g)
    (hp₁ : (taskOf g k₁).taskConfig.parallel = false)
    (hp₂ : (taskOf g k₂).taskConfig.parallel = false)
    (hsn : (taskOf g k₁).scriptName = (taskOf g k₂).scriptName) : k₁ = k₂ := by
  rw [allReadyTaskKeys] at h₁ h₂
  exact (dropUnpar_at_most_one g _ []).2 k₁ (mem_sortKeys.1 h₁) k₂ (mem_sortKeys.1 h₂)
    hp₁ hp₂ hsn

theorem sorted_take_before_drop {l : List String}
    (h : l.Pairwise (fun a b => keyLe a b = true)) {n : Nat} {a b : String}
    (ha : a ∈ l.take n) (hb : b ∈ l.drop n) : keyLe a b = true := by
  have hsplit := List.take_append_drop n l
  rw [← hsplit] at h
  exact (List.pairwise_append.1 h).2.2 a ha b hb

theorem copyOutputFiles_escape (wsFiles : String → Option Nat) :
    ∀ (files : List String) (fs : CacheFs) (lines : List (String × Nat)),
      (∀ q ∈ fs.outDirFiles, strStartsWith q.1 ".." = false) →
      ((∃ f ∈ files, strStartsWith f ".." = true) →
        (copyOutputFiles wsFiles files fs lines).2.2.isSome = true) ∧
      (∀ q ∈ (copyOutputFiles wsFiles files fs lines).1.outDirFiles,
        strStartsWith q.1 ".." = false) := by
  intro files
  induction files with
  | nil =>
    intro fs lines hfs
    constructor
    · intro hex
      rcases hex with ⟨f, hf, _⟩
      cases hf
    · intro q hq
      rw [copyOutputFiles] at hq
      exact hfs q hq
  | cons file rest ih =>
    intro fs lines hfs
    rw [copyOutputFiles]
    by_cases hbad : strStartsWith file ".." = true
    · rw [if_pos hbad]
      exact ⟨fun _ => rfl, fun q hq => hfs q hq⟩
    · rw [if_neg hbad]
      rcases hw : wsFiles file with _ | mtime
      · exact ⟨fun _ => rfl, fun q hq => hfs q hq⟩
      · have hfs' : ∀ q ∈ ({ fs with outDirFiles := fs.outDirFiles ++ [(file, mtime)] }
            : CacheFs).outDirFiles, strStartsWith q.1 ".." = false := by
          intro q hq
          rcases List.mem_append.1 hq with h1 | h1
          · exact hfs q h1
          · rcases List.mem_singleton.1 h1 with rfl
            simp only
            exact Bool.not_eq_true _ ▸ (by simpa using hbad)
        constructor
        · intro hex
          rcases hex with ⟨f, hf, hfb⟩
          rcases List.mem_cons.1 hf with h1 | h1
          · exact absurd (h1 ▸ hfb) hbad
          · exact (ih _ _ hfs').1 ⟨f, h1, hfb⟩
        · exact (ih _ _ hfs').2

theorem copyOutputFiles_manifest (wsFiles : String → Option Nat) :
    ∀ (files : List String) (fs : CacheFs) (lines : List (String × Nat)),
      (copyOutputFiles wsFiles files fs lines).1.outManifest = fs.outManifest := by
  intro files
  induction files with
  | nil => intro fs lines; rfl
  | cons file rest ih =>
    intro fs lines
    rw [copyOutputFiles]
    by_cases hbad : strStartsWith file ".." = true
    · rw [if_pos hbad]
    · rw [if_neg hbad]
      rcases hw : wsFiles file with _ | mtime
      · rfl
      · exact ih _ _

theorem copyOutputFiles_outDir (wsFiles : String → Option Nat) :
    ∀ (files : List String) (fs : CacheFs) (lines : List (String × Nat)),
      ∀ q ∈ (copyOutputFiles wsFiles files fs lines).1.outDirFiles,
        q ∈ fs.outDirFiles ∨ (q.1 ∈ files ∧ wsFiles q.1 = some q.2) := by
  intro files
  induction files with
  | nil =>
    intro fs lines q hq
    exact Or.inl hq
  | cons file rest ih =>
    intro fs lines q hq
    rw [copyOutputFiles] at hq
    by_cases hbad : strStartsWith file ".." = true
    · rw [if_pos hbad] at hq
      exact Or.inl hq
    · rw [if_neg hbad] at hq
      rcases hw : wsFiles file with _ | mtime
      · rw [hw] at hq
        exact Or.inl hq
      · rw [hw] at hq
        rcases ih _ _ q hq with h1 | h1
        · rcases List.mem_append.1 h1 with h2 | h2
          · exact Or.inl h2
          · rcases List.mem_singleton.1 h2 with rfl
            exact Or.inr ⟨List.mem_cons_self _ _, hw⟩
        · exact Or.inr ⟨List.mem_cons_of_mem _ h1.1, h1.2⟩

instance (cfg : Config) : Decidable (ConfigWF cfg) := by
  unfold ConfigWF
  infer_instance

instance (g : TaskGraph) : Decidable (WFGraph g) := by
  unfold WFGraph
  infer_instance

instance (g : TaskGraph) : Decidable (AllPending g) := by
  unfold AllPending
  infer_instance

instance (g : TaskGraph) : Decidable (TopoSorted g) := by
  unfold TopoSorted
  infer_instance

instance (g : TaskGraph) (extra : List String) : Decidable (DepsClosedExc g extra) := by
  unfold DepsClosedExc
  infer_instance

instance (p : List String) (g : TaskGraph) : Decidable (GraphInv p g) := by
  unfold GraphInv
  infer_instance

instance (g : TaskGraph) : Decidable (DepsSucceeded g) := by
  unfold DepsSucceeded
  infer_instance

/-- Example workspace with two scripts, used by the concrete instances. -/
def exWorkspace : Workspace :=
  { dir := "packages/w", name := "w", scripts := [("a", "cmd"), ("b", "cmd")]
  , localDependencyWorkspaceNames := [] }

/-- Example project with a root and one package. -/
def exProject : Project :=
  { root := { dir := ".", name := "root", scripts := [], localDependencyWorkspaceNames := [] }
  , workspacesByDir := [("packages/w", exWorkspace)] }

/-- Example configuration: both scripts independent and parallel. -/
def exConfig : Config :=
  { project := exProject
  , getTaskConfig := fun _ _ =>
      { execution := "independent", parallel := true, runsAfterEntries := [] }
  , isTopLevelScript := fun _ => false
  , mm := fun _ _ => [] }

/-- Example request list: script `b` requested before script `a`. -/
def exRequested : List RequestedTask :=
  [ { scriptName := "b", extraArgs := [], force := false, filterPaths := [] }
  , { scriptName := "a", extraArgs := [], force := false, filterPaths := [] } ]

/-- The graph the constructor builds for the example request. -/
def exGraph : TaskGraph :=
  (buildTaskGraph exConfig 8 exRequested).toOption.getD { allTasks := [], sortedTaskKeys := [] }

/-- Example node without dependencies for the scheduler instances. -/
def exTaskB : ScheduledTask :=
  { defaultScheduledTask with key := "t::b", scriptName := "t" }

/-- Example node depending on `t::b`. -/
def exTaskA : ScheduledTask :=
  { defaultScheduledTask with key := "t::a", scriptName := "t", dependencies := ["t::b"] }

/-- A two-node chain graph: `t::a` depends on `t::b`. -/
def exChainGraph : TaskGraph :=
  { allTasks := [("t::b", exTaskB), ("t::a", exTaskA)], sortedTaskKeys := ["t::b", "t::a"] }

/-- The chain graph after `t::b` was started and then failed. -/
def exChainFailed : TaskGraph :=
  tick 2 (completeTask (tick 2 exChainGraph) "t::b" true false)

/-- C1: for every project and request list on which graph construction
completes without an error, the node map and `sortedTaskKeys` hold the
same key set without duplicates, every dependency key resolves to a node
in the map, and `sortedTaskKeys` is a valid topological order — each
dependency key occurs strictly before its dependent. -/
theorem C1_graph_invariants (cfg : Config) (fuel : Nat) (rts : List RequestedTask)
    (g : TaskGraph) (hcfg : ConfigWF cfg) (hok : buildTaskGraph cfg fuel rts = Except.ok g) :
    (∀ k ∈ mapKeys g, k ∈ g.sortedTaskKeys) ∧
    (∀ k ∈ g.sortedTaskKeys, k ∈ mapKeys g) ∧
    (mapKeys g).Nodup ∧ g.sortedTaskKeys.Nodup ∧
    (∀ q ∈ g.allTasks, ∀ d ∈ q.2.dependencies, d ∈ mapKeys g) ∧
    (∀ k ∈ g.sortedTaskKeys, ∀ d ∈ (taskOf g k).dependencies,
      d ∈ g.sortedTaskKeys ∧ keyIdx d g.sortedTaskKeys < keyIdx k g.sortedTaskKeys) := by
  have hinit : GraphInv [] { allTasks := [], sortedTaskKeys := [] } := by
    refine ⟨List.nodup_nil, List.nodup_nil, List.nodup_nil, ?_, ?_, ?_, ?_, ?_⟩
    · intro k hk; cases hk
    · intro k hk; cases hk
    · intro k hk; cases hk
    · intro k hk; cases hk
    · intro k hk; cases hk
  have hDC : DepsClosedExc { allTasks := [], sortedTaskKeys := [] } [] := by
    intro q hq; cases hq
  obtain ⟨hGI, hDCf⟩ := requestedLoop_inv cfg hcfg fuel rts _ g hok hinit hDC
  obtain ⟨h1, h2, _, h4, h5, _, _, h8⟩ := hGI
  refine ⟨?_, h5, h1, h2, ?_, h8⟩
  · intro k hk
    rcases h4 k hk with h | h
    · exact h
    · cases h
  · intro q hq d hd
    rcases hDCf q hq d hd with h | h
    · exact h
    · cases h

/-- Witness for C1 at the concrete example build. -/
theorem C1_graph_invariants_witness :
    ConfigWF exConfig ∧
    buildTaskGraph exConfig 8 exRequested = Except.ok exGraph ∧
    ((∀ k ∈ mapKeys exGraph, k ∈ exGraph.sortedTaskKeys) ∧
     (∀ k ∈ exGraph.sortedTaskKeys, k ∈ mapKeys exGraph) ∧
     (mapKeys exGraph).Nodup ∧ exGraph.sortedTaskKeys.Nodup ∧
     (∀ q ∈ exGraph.allTasks, ∀ d ∈ q.2.dependencies, d ∈ mapKeys exGraph) ∧
     (∀ k ∈ exGraph.sortedTaskKeys, ∀ d ∈ (taskOf exGraph k).dependencies,
       d ∈ exGraph.sortedTaskKeys ∧
         keyIdx d exGraph.sortedTaskKeys < keyIdx k exGraph.sortedTaskKeys)) :=
  ⟨by decide, by decide,
    C1_graph_invariants exConfig 8 exRequested exGraph (by decide) (by decide)⟩

/-- C2: `tick` transitions a task from `pending` to `running` only when
every dependency has a status beginning with `success`; consequently, in
any run of `runAllTasks`, a task with a failed dependency stays
`pending`. -/
theorem C2_dependency_gating (maxConcurrent : Nat) :
    (∀ (g : TaskGraph) (k : String), (taskOf g k).status = "pending" →
      (taskOf (tick maxConcurrent g) k).status = "running" →
      ∀ d ∈ (taskOf g k).dependencies,
        strStartsWith (taskOf g d).status "success" = true) ∧
    (∀ (g₀ g : TaskGraph) (k d : String), WFGraph g₀ → AllPending g₀ →
      Reachable maxConcurrent g₀ g → k ∈ g.sortedTaskKeys →
      d ∈ (taskOf g k).dependencies → (taskOf g d).status = "failure" →
      (taskOf g k).status = "pending") := by
  constructor
  · intro g k hpend hrun d hd
    have hmem := tick_started_of_status hpend hrun
    have hready := mem_allReadyTaskKeys (tickStarted_subset_ready hmem)
    exact (isTaskReady_iff.1 hready.2).2 d hd
  · intro g₀ g k d hWF hAP hreach hk hd hfail
    obtain ⟨hWF', hDS, _⟩ := schedInv_reachable hWF hAP hreach
    by_contra hstat
    have hsucc := hDS k hk hstat d hd
    rw [hfail] at hsucc
    exact (by decide : strStartsWith "failure" "success" ≠ true) hsucc

/-- Witness for C2: in the chain graph, after `t::b` fails, `t::a` is
still pending in the resolved state. -/
theorem C2_dependency_gating_witness :
    WFGraph exChainGraph ∧ AllPending exChainGraph ∧
    "t::a" ∈ exChainFailed.sortedTaskKeys ∧
    "t::b" ∈ (taskOf exChainFailed "t::a").dependencies ∧
    (taskOf exChainFailed "t::b").status = "failure" ∧
    (taskOf exChainFailed "t::a").status = "pending" :=
  ⟨by decide, by decide, by decide, by decide, by decide,
    (C2_dependency_gating 2).2 exChainGraph exChainFailed "t::a" "t::b" (by decide) (by decide)
      (Relation.ReflTransGen.single
        (SchedStep.complete (tick 2 exChainGraph) "t::b" true false (by decide)))
      (by decide) (by decide) (by decide)⟩

/-- C3: throughout any run, the number of `running` tasks never exceeds
`maxConcurrentTasks`, which is 2 when the parallelism-forcing variable is
set, 1 in test mode, and `max(1, cpuCount - 1)` otherwise. -/
theorem C3_concurrency_bound (forceParallelEnv isTest : Bool) (numCpus : Nat)
    (g₀ g : TaskGraph) (hWF : WFGraph g₀) (hAP : AllPending g₀)
    (hreach : Reachable (maxConcurrentTasks forceParallelEnv isTest numCpus) g₀ g) :
    runningCount g ≤ maxConcurrentTasks forceParallelEnv isTest numCpus ∧
    maxConcurrentTasks true isTest numCpus = 2 ∧
    maxConcurrentTasks false true numCpus = 1 ∧
    maxConcurrentTasks false false numCpus = max 1 (numCpus - 1) := by
  exact ⟨(schedInv_reachable hWF hAP hreach).2.2, rfl, rfl, rfl⟩

/-- Witness for C3 at the chain graph in test mode. -/
theorem C3_concurrency_bound_witness :
    WFGraph exChainGraph ∧ AllPending exChainGraph ∧
    runningCount (tick (maxConcurrentTasks false true 4) exChainGraph) ≤
      maxConcurrentTasks false true 4 :=
  ⟨by decide, by decide,
    (C3_concurrency_bound false true 4 exChainGraph
      (tick (maxConcurrentTasks false true 4) exChainGraph)
      (by decide) (by decide) Relation.ReflTransGen.refl).1⟩

/-- C4 counterexample: in the example build, the construction order of
`sortedTaskKeys` is `[b::packages/w, a::packages/w]`, both tasks are
ready, yet with a single free slot `tick` starts `a::packages/w` — the
lexicographically first key — and leaves the construction-order-first
key `b::packages/w` pending.  Task starts are therefore not chosen by
the sorted key list's stable construction order. -/
theorem C4_counterexample :
    buildTaskGraph exConfig 8 exRequested = Except.ok exGraph ∧
    exGraph.sortedTaskKeys = ["b::packages/w", "a::packages/w"] ∧
    isTaskReady exGraph "b::packages/w" = true ∧
    isTaskReady exGraph "a::packages/w" = true ∧
    allRunningTaskKeys exGraph = [] ∧
    (taskOf (tick 1 exGraph) "b::packages/w").status = "pending" ∧
    (taskOf (tick 1 exGraph) "a::packages/w").status = "running" := by
  decide

/-- C4 as amended: when more ready tasks exist than free slots, the
tasks actually started are the first ones of the filtered ready set in
ascending lexicographic TaskKey order (JavaScript's default `sort()`
comparator), not construction order: every started key compares
less-or-equal to every ready key left pending. -/
theorem C4_amended_lex_order (maxConcurrent : Nat) (g : TaskGraph) (k₁ k₂ : String)
    (hWF : WFGraph g)
    (hp₁ : (taskOf g k₁).status = "pending")
    (hr₁ : (taskOf (tick maxConcurrent g) k₁).status = "running")
    (hready₂ : k₂ ∈ allReadyTaskKeys g)
    (hp₂ : (taskOf (tick maxConcurrent g) k₂).status = "pending") :
    keyLe k₁ k₂ = true := by
  have hk₁ := tick_started_of_status hp₁ hr₁
  have hk₂not : k₂ ∉ tickStarted maxConcurrent g := by
    intro hmem
    have hk₂map : k₂ ∈ mapKeys g := hWF.2.2.2.1 k₂ (mem_allReadyTaskKeys hready₂).1
    have hrun₂ : (taskOf (tick maxConcurrent g) k₂).status = "running" := by
      rw [tick_eq_startTasks]
      exact taskOf_startTasks_mem _ g k₂ hmem hk₂map
    rw [hp₂] at hrun₂
    exact (by decide : ("pending" : String) ≠ "running") hrun₂
  have hpw : (allReadyTaskKeys g).Pairwise (fun a b => keyLe a b = true) := by
    rw [allReadyTaskKeys]
    exact pairwise_sortKeys _
  rw [tickStarted] at hk₁ hk₂not
  by_cases h1 : (allRunningTaskKeys g).length ≥ maxConcurrent
  · rw [if_pos h1] at hk₁
    cases hk₁
  · rw [if_neg h1] at hk₁ hk₂not
    by_cases h2 : (allReadyTaskKeys g).isEmpty = true
    · rw [if_pos h2] at hk₁
      cases hk₁
    · rw [if_neg h2] at hk₁ hk₂not
      have hdrop : k₂ ∈ (allReadyTaskKeys g).drop
          (min (maxConcurrent - (allRunningTaskKeys g).length)
            (allReadyTaskKeys g).length) := by
        rcases List.mem_append.1 (show k₂ ∈ (allReadyTaskKeys g).take
            (min (maxConcurrent - (allRunningTaskKeys g).length)
              (allReadyTaskKeys g).length) ++ (allReadyTaskKeys g).drop
            (min (maxConcurrent - (allRunningTaskKeys g).length)
              (allReadyTaskKeys g).length) from by
            rw [List.take_append_drop]
            exact hready₂) with h | h
        · exact absurd h hk₂not
        · exact h
      exact sorted_take_before_drop hpw hk₁ hdrop

/-- Witness for the amended C4 at the example build with one slot. -/
theorem C4_amended_lex_order_witness :
    WFGraph exGraph ∧
    (taskOf exGraph "a::packages/w").status = "pending" ∧
    (taskOf (tick 1 exGraph) "a::packages/w").status = "running" ∧
    "b::packages/w" ∈ allReadyTaskKeys exGraph ∧
    (taskOf (tick 1 exGraph) "b::packages/w").status = "pending" ∧
    keyLe "a::packages/w" "b::packages/w" = true :=
  ⟨by decide, by decide, by decide, by decide, by decide,
    C4_amended_lex_order 1 exGraph "a::packages/w" "b::packages/w"
      (by decide) (by decide) (by decide) (by decide) (by decide)⟩

/-- Two non-parallel tasks sharing the script name `t`, for C5. -/
def exNpTask (k : String) : ScheduledTask :=
  { defaultScheduledTask with
    key := k
    scriptName := "t"
    taskConfig := { execution := "independent", parallel := false, runsAfterEntries := [] } }

/-- Graph of two ready non-parallel tasks with the same script name. -/
def exNpGraph : TaskGraph :=
  { allTasks := [("t::a", exNpTask "t::a"), ("t::b", exNpTask "t::b")]
  , sortedTaskKeys := ["t::a", "t::b"] }

/-- C5: within a single `tick`, at most one task whose config has
`parallel = false` is transitioned to `running` per script name: any two
such tasks started by the same tick are the same task. -/
theorem C5_nonparallel_serialization (maxConcurrent : Nat) (g : TaskGraph) (k₁ k₂ : String)
    (hp₁ : (taskOf g k₁).status = "pending")
    (hr₁ : (taskOf (tick maxConcurrent g) k₁).status = "running")
    (hp₂ : (taskOf g k₂).status = "pending")
    (hr₂ : (taskOf (tick maxConcurrent g) k₂).status = "running")
    (hnp₁ : (taskOf g k₁).taskConfig.parallel = false)
    (hnp₂ : (taskOf g k₂).taskConfig.parallel = false)
    (hsn : (taskOf g k₁).scriptName = (taskOf g k₂).scriptName) : k₁ = k₂ :=
  allReady_at_most_one_nonparallel
    (tickStarted_subset_ready (tick_started_of_status hp₁ hr₁))
    (tickStarted_subset_ready (tick_started_of_status hp₂ hr₂)) hnp₁ hnp₂ hsn

/-- Witness for C5: with two slots free and two ready non-parallel tasks
of the same script, only `t::a` starts; the theorem applies to it. -/
theorem C5_nonparallel_serialization_witness :
    (taskOf exNpGraph "t::a").status = "pending" ∧
    (taskOf (tick 2 exNpGraph) "t::a").status = "running" ∧
    (taskOf (tick 2 exNpGraph) "t::b").status = "pending" ∧
    (taskOf exNpGraph "t::a").taskConfig.parallel = false ∧
    ("t::a" : String) = "t::a" :=
  ⟨by decide, by decide, by decide, by decide,
    C5_nonparallel_serialization 2 exNpGraph "t::a" "t::a" (by decide) (by decide)
      (by decide) (by decide) (by decide) (by decide) (by decide)⟩

/-- C6: when `visit` reaches a key already present in the node map, it
fails with a circular-dependency error listing the visitation path if the
key is on the current path, and otherwise returns with the graph state
completely unchanged. -/
theorem C6_cycle_detection (cfg : Config) (fuel : Nat) (path : List String)
    (rt : RequestedTask) (ws : Workspace) (g : TaskGraph)
    (hmem : (findTask g (getTaskKey ws.dir rt.scriptName)).isSome = true) :
    (getTaskKey ws.dir rt.scriptName ∈ path →
      visit cfg (Nat.succ fuel) path rt ws g =
        Except.error (BuildError.cycle (path ++ [getTaskKey ws.dir rt.scriptName]))) ∧
    (getTaskKey ws.dir rt.scriptName ∉ path →
      visit cfg (Nat.succ fuel) path rt ws g = Except.ok g) := by
  constructor
  · intro hp
    rw [visit, if_pos hmem, if_pos hp]
  · intro hp
    rw [visit, if_pos hmem, if_neg hp]

/-- The requested task used by the C6 and C7 instances. -/
def exRtA : RequestedTask :=
  { scriptName := "a", extraArgs := [], force := false, filterPaths := [] }

/-- Witness for C6 at the example build, where `a::packages/w` is in the
map and on the visitation path. -/
theorem C6_cycle_detection_witness :
    (findTask exGraph (getTaskKey exWorkspace.dir exRtA.scriptName)).isSome = true ∧
    ((getTaskKey exWorkspace.dir exRtA.scriptName ∈ ["a::packages/w"] →
      visit exConfig 8 ["a::packages/w"] exRtA exWorkspace exGraph =
        Except.error (BuildError.cycle
          (["a::packages/w"] ++ [getTaskKey exWorkspace.dir exRtA.scriptName]))) ∧
    (getTaskKey exWorkspace.dir exRtA.scriptName ∉ ["a::packages/w"] →
      visit exConfig 8 ["a::packages/w"] exRtA exWorkspace exGraph = Except.ok exGraph)) :=
  ⟨by decide,
    C6_cycle_detection exConfig 7 ["a::packages/w"] exRtA exWorkspace exGraph (by decide)⟩

/-- C7: the dependency keys `enqueueTask` appends to the owner's list are
exactly the task keys of the resolved target workspaces: the project root
for a top-level script, else the filter-path-selected package directories
(absolute patterns matched directly, relative ones joined to the project
root, empty filter keeping all) that declare the requested script. -/
theorem C7_target_resolution (cfg : Config) (fuel : Nat) (path : List String)
    (rt : RequestedTask) (o : String) (g g' : TaskGraph) (hcfg : ConfigWF cfg)
    (hok : enqueueTask cfg fuel path rt (some o) g = Except.ok g')
    (hGI : GraphInv path g) (hDC : DepsClosedExc g []) (ho : o ∈ path) :
    (taskOf g' o).dependencies = (taskOf g o).dependencies ++
      (resolvedTargetDirs cfg rt).map (fun d => getTaskKey d rt.scriptName) :=
  ((buildSpec cfg hcfg fuel).2.2.1 path rt (some o) g g' hok hGI hDC
    (fun o' ho' => by cases ho'; exact ho)).2.2.2 o rfl

/-- Owner node used by the C7 instance. -/
def exOwnTask : ScheduledTask :=
  { defaultScheduledTask with key := "own" }

/-- Graph with just the owner node, on the path, for C7. -/
def exOwnGraph : TaskGraph :=
  { allTasks := [("own", exOwnTask)], sortedTaskKeys := [] }

/-- The graph after enqueueing script `a` with the owner's dependency
array, for C7. -/
def exC7Graph : TaskGraph :=
  (enqueueTask exConfig 8 ["own"] exRtA (some "own") exOwnGraph).toOption.getD
    { allTasks := [], sortedTaskKeys := [] }

/-- Witness for C7 at the concrete enqueue. -/
theorem C7_target_resolution_witness :
    ConfigWF exConfig ∧
    enqueueTask exConfig 8 ["own"] exRtA (some "own") exOwnGraph = Except.ok exC7Graph ∧
    GraphInv ["own"] exOwnGraph ∧ DepsClosedExc exOwnGraph [] ∧ "own" ∈ ["own"] ∧
    (taskOf exC7Graph "own").dependencies = (taskOf exOwnGraph "own").dependencies ++
      (resolvedTargetDirs exConfig exRtA).map (fun d => getTaskKey d exRtA.scriptName) :=
  ⟨by decide, by decide, by decide, by decide, by decide,
    C7_target_resolution exConfig 8 ["own"] exRtA "own" exOwnGraph exC7Graph
      (by decide) (by decide) (by decide) (by decide) (by decide)⟩

/-- C8: if any output file's project-root-relative path begins with
`..`, `cacheOutputs` raises a fatal error, and no such file is ever
copied into the cache directory. -/
theorem C8_escaping_output_rejected (wsFiles : String → Option Nat)
    (outputFiles : List String) (fs : CacheFs) (f : String)
    (hf : f ∈ outputFiles) (hbad : strStartsWith f ".." = true) :
    (cacheOutputs wsFiles outputFiles fs).errorMsg.isSome = true ∧
    ∀ q ∈ (cacheOutputs wsFiles outputFiles fs).fs.outDirFiles,
      strStartsWith q.1 ".." = false := by
  have hne : outputFiles.isEmpty = false := by
    cases outputFiles with
    | nil => cases hf
    | cons a rest => rfl
  have h1 := copyOutputFiles_escape wsFiles outputFiles
    { outDirFiles := [], outManifest := none } [] (by intro q hq; cases hq)
  rcases hcopy : copyOutputFiles wsFiles outputFiles
      { outDirFiles := [], outManifest := none } [] with ⟨fs₂, lines, err⟩
  rcases err with _ | e
  · exfalso
    have h2 := h1.1 ⟨f, hf, hbad⟩
    rw [hcopy] at h2
    simp at h2
  · have h3 := h1.2
    rw [hcopy] at h3
    constructor
    · simp [cacheOutputs, hne, hcopy]
    · intro q hq
      simp only [cacheOutputs, hne, Bool.false_eq_true, if_false, hcopy] at hq
      exact h3 q hq

/-- Workspace file mtimes for the C8 and C9 instances. -/
def exWsFiles : String → Option Nat :=
  fun f => if f = "good.txt" then some 5 else if f = "../evil" then some 7 else none

/-- Output file list with a path escaping the project root. -/
def exOutputFiles : List String := ["good.txt", "../evil"]

/-- Previously cached state that `cacheOutputs` destroys up front. -/
def exCacheIn : CacheFs :=
  { outDirFiles := [("old.txt", 1)], outManifest := some [("old.txt", 1)] }

/-- Witness for C8 at the concrete escaping output list. -/
theorem C8_escaping_output_rejected_witness :
    "../evil" ∈ exOutputFiles ∧ strStartsWith "../evil" ".." = true ∧
    ((cacheOutputs exWsFiles exOutputFiles exCacheIn).errorMsg.isSome = true ∧
    ∀ q ∈ (cacheOutputs exWsFiles exOutputFiles exCacheIn).fs.outDirFiles,
      strStartsWith q.1 ".." = false) :=
  ⟨by decide, by decide,
    C8_escaping_output_rejected exWsFiles exOutputFiles exCacheIn "../evil"
      (by decide) (by decide)⟩

/-- C9 (implicit): `cacheOutputs` removes the previously cached output
directory and output manifest before validating or copying anything, so
when it raises an error the old cache is gone: the resulting state holds
no output manifest, and every file still in the cache directory stems
from the current (partially copied) output list. -/
theorem C9_error_leaves_cache_destroyed (wsFiles : String → Option Nat)
    (outputFiles : List String) (fs : CacheFs) (e : String)
    (herr : (cacheOutputs wsFiles outputFiles fs).errorMsg = some e) :
    (cacheOutputs wsFiles outputFiles fs).fs.outManifest = none ∧
    ∀ q ∈ (cacheOutputs wsFiles outputFiles fs).fs.outDirFiles,
      q.1 ∈ outputFiles ∧ wsFiles q.1 = some q.2 := by
  by_cases hne : outputFiles.isEmpty = true
  · exfalso
    simp [cacheOutputs, hne] at herr
  · have hne' : outputFiles.isEmpty = false := by
      cases h : outputFiles.isEmpty
      · rfl
      · exact absurd h hne
    rcases hcopy : copyOutputFiles wsFiles outputFiles
        { outDirFiles := [], outManifest := none } [] with ⟨fs₂, lines, err⟩
    rcases err with _ | e'
    · exfalso
      simp [cacheOutputs, hne', hcopy] at herr
    · have hm := copyOutputFiles_manifest wsFiles outputFiles
        { outDirFiles := [], outManifest := none } []
      rw [hcopy] at hm
      have ho := copyOutputFiles_outDir wsFiles outputFiles
        { outDirFiles := [], outManifest := none } []
      rw [hcopy] at ho
      constructor
      · simp only [cacheOutputs, hne', Bool.false_eq_true, if_false, hcopy]
        exact hm
      · intro q hq
        simp only [cacheOutputs, hne', Bool.false_eq_true, if_false, hcopy] at hq
        rcases ho q hq with h | h
        · cases h
        · exact h

/-- Witness for C9: the error run destroyed the old manifest and cache
directory, and a partially written new cache remains. -/
theorem C9_error_leaves_cache_destroyed_witness :
    (cacheOutputs exWsFiles exOutputFiles exCacheIn).errorMsg =
      some "output file is outside of workspace: ../evil" ∧
    (cacheOutputs exWsFiles exOutputFiles exCacheIn).fs.outDirFiles = [("good.txt", 5)] ∧
    ((cacheOutputs exWsFiles exOutputFiles exCacheIn).fs.outManifest = none ∧
    ∀ q ∈ (cacheOutputs exWsFiles exOutputFiles exCacheIn).fs.outDirFiles,
      q.1 ∈ exOutputFiles ∧ exWsFiles q.1 = some q.2) :=
  ⟨by decide, by decide,
    C9_error_leaves_cache_destroyed exWsFiles exOutputFiles exCacheIn
      "output file is outside of workspace: ../evil" (by decide)⟩

/-- C10 (implicit): the parallelism-forcing environment variable takes
precedence over test mode in `maxConcurrentTasks`: with both set the
bound is 2, and test mode yields 1 only when the forcing variable is
unset. -/
theorem C10_force_parallel_precedence (numCpus : Nat) :
    (∀ isTest : Bool, maxConcurrentTasks true isTest numCpus = 2) ∧
    maxConcurrentTasks false true numCpus = 1 :=
  ⟨fun _ => rfl, rfl⟩

end Lazyrepo
